import Mathlib

/-!
# Verification of the page-cache core (buffer pool, LRU-K replacer, extendible hash table)

Shallow embedding of the three C++ source files

* `src/container/hash/extendible_hash_table.cpp`
* `src/buffer/lru_k_replacer.cpp`
* `src/buffer/buffer_pool_manager_instance.cpp`

together with theorems settling the specification claims about them.
The C++ classes use `std::shared_ptr` aliasing (directory slots sharing
buckets) and in-place mutation; we model the pointer heap as a list of
buckets addressed by index, and mutation as explicit state passing.
-/

set_option maxRecDepth 100000

namespace Spec2Proof

/-! ## Extendible hash table (`src/container/hash/extendible_hash_table.cpp`)

`ExtendibleHashTable<K, V>` keeps `dir_`, a vector of `2^global_depth_`
shared pointers to buckets (several slots may share one bucket), plus
`global_depth_`, `bucket_size_` and `num_buckets_`.  We model the heap of
bucket objects as `buckets : List (Bucket K V)` and the directory as
`dir : List Nat` of indices into that heap, which represents the aliasing
exactly.  The hash function is passed explicitly to each operation
(`std::hash<K>` in the source). -/

structure Bucket (K V : Type) where
  size : Nat
  depth : Nat
  list : List (K × V)

namespace Bucket

/-- The default bucket, used to totalize out-of-range heap lookups
(which are undefined behaviour in the C++ source). -/
def dflt : Bucket K V := ⟨0, 0, []⟩

/-- Modelled from the spec: the header `extendible_hash_table.h` is not in
`src/`; the spec fixes a bucket as `(local_depth, items)` with `items` a
sequence of length at most `bucket_size`, so the `IsFull()` accessor holds
exactly when the item list has reached the capacity `size_`. -/
def IsFull (b : Bucket K V) : Bool := b.list.length == b.size

/-- `Bucket::Find` (lines 148-158): scan the item list front to back and
return the first value bound to `key`. -/
def FindB [DecidableEq K] (b : Bucket K V) (key : K) : Option V :=
  (b.list.find? (fun kv => decide (kv.1 = key))).map (fun kv => kv.2)

/-- `Bucket::Remove` (lines 160-172): erase every item whose key matches,
returning whether any was erased. -/
def RemoveB [DecidableEq K] (b : Bucket K V) (key : K) : Bool × Bucket K V :=
  (b.list.any (fun kv => decide (kv.1 = key)),
   { b with list := b.list.filter (fun kv => ! decide (kv.1 = key)) })

/-- `Bucket::Insert` (lines 174-194): refuse when the bucket is full;
otherwise overwrite the value of every item with a matching key, and if
none matched append the new pair at the back. -/
def InsertB [DecidableEq K] (b : Bucket K V) (key : K) (value : V) :
    Bool × Bucket K V :=
  if b.IsFull then (false, b)
  else if b.list.any (fun kv => decide (kv.1 = key)) then
    (true, { b with list := b.list.map (fun kv => if kv.1 = key then (kv.1, value) else kv) })
  else (true, { b with list := b.list ++ [(key, value)] })

end Bucket

structure ExtendibleHashTable (K V : Type) where
  globalDepth : Nat
  bucketSize : Nat
  numBuckets : Nat
  buckets : List (Bucket K V)
  dir : List Nat

namespace ExtendibleHashTable

variable {K V : Type}

/-- The constructor (lines 26-31): global depth 0, one empty bucket of
local depth 0, a one-slot directory pointing at it. -/
def new (K V : Type) (bucketSize : Nat) : ExtendibleHashTable K V :=
  ⟨0, bucketSize, 1, [⟨bucketSize, 0, []⟩], [0]⟩

/-- `IndexOf` (lines 33-37): the low `global_depth_` bits of the hash. -/
def IndexOf (hash : K → Nat) (t : ExtendibleHashTable K V) (key : K) : Nat :=
  hash key % 2 ^ t.globalDepth

/-- The bucket a directory slot points at (`dir_[i]` dereferenced). -/
def bucketAt (t : ExtendibleHashTable K V) (i : Nat) : Bucket K V :=
  t.buckets.getD (t.dir.getD i 0) Bucket.dflt

/-- `GetGlobalDepth` (lines 40-48). -/
def GetGlobalDepth (t : ExtendibleHashTable K V) : Nat := t.globalDepth

/-- `GetLocalDepth` (lines 50-59): `dir_[dir_index]->GetDepth()`. -/
def GetLocalDepth (t : ExtendibleHashTable K V) (i : Nat) : Nat :=
  (t.bucketAt i).depth

/-- `GetNumBuckets` (lines 61-70). -/
def GetNumBuckets (t : ExtendibleHashTable K V) : Nat := t.numBuckets

/-- `Find` (lines 72-80): look only in the bucket at slot `IndexOf key`. -/
def Find [DecidableEq K] (hash : K → Nat) (t : ExtendibleHashTable K V) (key : K) :
    Option V :=
  (t.bucketAt (IndexOf hash t key)).FindB key

/-- `Remove` (lines 82-90): remove from the bucket at slot `IndexOf key`. -/
def Remove [DecidableEq K] (hash : K → Nat) (t : ExtendibleHashTable K V) (key : K) :
    Bool × ExtendibleHashTable K V :=
  let i := IndexOf hash t key
  let bId := t.dir.getD i 0
  let res := (t.buckets.getD bId Bucket.dflt).RemoveB key
  (res.1, { t with buckets := t.buckets.set bId res.2 })

/-- `dir_[i]->Insert(key, value)` on the shared bucket at slot `i`
(the final statement of `Insert`, line 138). -/
def insertAtSlot [DecidableEq K] (t : ExtendibleHashTable K V) (i : Nat)
    (key : K) (value : V) : ExtendibleHashTable K V :=
  let bId := t.dir.getD i 0
  { t with buckets := t.buckets.set bId ((t.buckets.getD bId Bucket.dflt).InsertB key value).2 }

/-- The item-partitioning loop of `RedistributeBucket` (lines 105-112),
written as structural recursion (it is exactly a left fold): the first
component accumulates the items kept in the original bucket, the second
is the sibling bucket receiving the moved items through `Bucket::Insert`.
An item is erased from the original either way. -/
def moveItemsGo [DecidableEq K] (hash : K → Nat) (pre nd : Nat) :
    List (K × V) → List (K × V) × Bucket K V → List (K × V) × Bucket K V
  | [], acc => acc
  | kv :: items, acc =>
      moveItemsGo hash pre nd items
        (if pre = hash kv.1 % 2 ^ nd then (acc.1 ++ [kv], acc.2)
         else (acc.1, (acc.2.InsertB kv.1 kv.2).2))

/-- The directory-repointing loop of `RedistributeBucket` (lines 114-118)
over an explicit list of slot indices: slot `j` is repointed at `nbId`
when `Lowmask(j, nd-1) == pre` but `Lowmask(j, nd) != pre`. -/
def dirRepointGo (nd pre nbId : Nat) : List Nat → List Nat → List Nat
  | [], d => d
  | j :: js, d =>
      dirRepointGo nd pre nbId js
        (if j % 2 ^ (nd - 1) = pre ∧ ¬ j % 2 ^ nd = pre then d.set j nbId else d)

/-- `RedistributeBucket` (lines 97-119), called with the slot index whose
shared bucket overflowed: bump `num_buckets_`, increment the bucket's
local depth to `new_depth`, create a sibling bucket, compute the surviving
pattern `pre_bucket_mask` from the first item's hash masked to
`new_depth - 1` bits, move the items (`moveItemsGo`) and repoint the
directory slots (`dirRepointGo`). -/
def RedistributeBucket [DecidableEq K] (hash : K → Nat)
    (t : ExtendibleHashTable K V) (i : Nat) : ExtendibleHashTable K V :=
  let bId := t.dir.getD i 0
  let b := t.buckets.getD bId Bucket.dflt
  let nd := b.depth + 1
  let pre : Nat := match b.list with
    | [] => 0
    | kv :: _ => hash kv.1 % 2 ^ (nd - 1)
  let moved := moveItemsGo hash pre nd b.list ([], ⟨t.bucketSize, nd, []⟩)
  let nbId := t.buckets.length
  let dir2 := dirRepointGo nd pre nbId (List.range (2 ^ t.globalDepth)) t.dir
  { t with
    numBuckets := t.numBuckets + 1
    buckets := (t.buckets.set bId ⟨b.size, nd, moved.1⟩) ++ [moved.2]
    dir := dir2 }

/-- `Insert` (lines 121-140): if the slot's bucket is full, first (when
`global_depth_ == local_depth`) double the directory by appending a copy
of itself and bump the global depth, then recompute the slot and split the
bucket once via `RedistributeBucket`; finally attempt a single
`Bucket::Insert` into the (possibly new) bucket now at the slot.  There is
no retry loop: if that bucket is still full the pair is silently dropped. -/
def Insert [DecidableEq K] (hash : K → Nat) (t : ExtendibleHashTable K V)
    (key : K) (value : V) : ExtendibleHashTable K V :=
  let i0 := IndexOf hash t key
  if (t.bucketAt i0).IsFull then
    let t1 := if t.globalDepth = (t.bucketAt i0).depth
      then { t with
             dir := t.dir ++ t.dir.take (2 ^ t.globalDepth)
             globalDepth := t.globalDepth + 1 }
      else t
    let i1 := IndexOf hash t1 key
    let t2 := RedistributeBucket hash t1 i1
    insertAtSlot t2 i1 key value
  else insertAtSlot t i0 key value

end ExtendibleHashTable

/-- `std::hash<int>` on the reference platform is the identity; the result
is converted to `size_t` (64 bits), so negative keys wrap modulo `2^64`. -/
def stdHashInt (k : Int) : Nat := (k % (2 ^ 64 : Int)).toNat

/-- Run a sequence of `insert`s on the `<int, int>` instantiation
(`template class ExtendibleHashTable<int, int>`, line 198). -/
def runInserts (ps : List (Int × Int)) (t : ExtendibleHashTable Int Int) :
    ExtendibleHashTable Int Int :=
  ps.foldl (fun t p => ExtendibleHashTable.Insert stdHashInt t p.1 p.2) t

/-! ## LRU-K replacer (`src/buffer/lru_k_replacer.cpp`)

State: per-frame `access_count_` and `is_evictable_` maps (modelled as
total functions, matching `std::unordered_map` auto-insertion of zero /
false defaults), the `history_list_` (frames with fewer than `k` accesses)
and `cache_list_` (frames with at least `k` accesses), both ordered
most-recently-pushed at the front, and the evictable count `curr_size_`.
Operations that `throw` are modelled as returning `none` (the exception is
uncaught in the source, so the process dies and no later state exists). -/

structure LRUKReplacer where
  k : Nat
  replacerSize : Nat
  currSize : Nat
  accessCount : Nat → Nat
  isEvictable : Nat → Bool
  historyList : List Nat
  cacheList : List Nat

namespace LRUKReplacer

/-- The constructor (line 21). -/
def new (numFrames k : Nat) : LRUKReplacer :=
  ⟨k, numFrames, 0, fun _ => 0, fun _ => false, [], []⟩

/-- `Size` (lines 139-142). -/
def Size (r : LRUKReplacer) : Nat := r.currSize

/-- `RecordAccess` (lines 74-99).  The bounds check is
`frame_id > replacer_size_` (strict), so `frame_id == replacer_size_` is
accepted.  Bump the count; at exactly `k` move the frame from the history
list to the front of the cache list; above `k` move it to the front of the
cache list; below `k` move it to the front of the history list
(`HistoryGetFrame`/`CacheGetFrame` find the first occurrence, and a
missing frame is not erased). -/
def RecordAccess (r : LRUKReplacer) (f : Nat) : Option LRUKReplacer :=
  if f > r.replacerSize then none else
  let c := r.accessCount f + 1
  let ac := fun x => if x = f then c else r.accessCount x
  if c = r.k then
    some { r with accessCount := ac, historyList := r.historyList.erase f,
                  cacheList := f :: r.cacheList }
  else if c > r.k then
    some { r with accessCount := ac, cacheList := f :: r.cacheList.erase f }
  else
    some { r with accessCount := ac, historyList := f :: r.historyList.erase f }

/-- `SetEvictable` (lines 101-113): same strict bounds check; adjust
`curr_size_` only when the flag actually flips. -/
def SetEvictable (r : LRUKReplacer) (f : Nat) (flag : Bool) : Option LRUKReplacer :=
  if f > r.replacerSize then none else
  let cs := if ¬ r.isEvictable f ∧ flag then r.currSize + 1
            else if r.isEvictable f ∧ ¬ flag then r.currSize - 1
            else r.currSize
  some { r with currSize := cs, isEvictable := fun x => if x = f then flag else r.isEvictable x }

/-- `Evict` (lines 41-72): fail on `curr_size_ == 0`; otherwise walk the
history list from tail to head and return the first evictable frame,
falling back to the same walk of the cache list; on success erase the
frame from its list, zero its count, clear its flag and decrement
`curr_size_`.  If both walks find nothing, return failure (even though
`curr_size_ > 0`). -/
def Evict (r : LRUKReplacer) : Option (Nat × LRUKReplacer) :=
  if r.currSize = 0 then none else
  match r.historyList.reverse.find? (fun f => r.isEvictable f) with
  | some f =>
      some (f, { r with
        accessCount := fun x => if x = f then 0 else r.accessCount x
        isEvictable := fun x => if x = f then false else r.isEvictable x
        historyList := r.historyList.erase f
        currSize := r.currSize - 1 })
  | none =>
    match r.cacheList.reverse.find? (fun f => r.isEvictable f) with
    | some f =>
        some (f, { r with
          accessCount := fun x => if x = f then 0 else r.accessCount x
          isEvictable := fun x => if x = f then false else r.isEvictable x
          cacheList := r.cacheList.erase f
          currSize := r.currSize - 1 })
    | none => none

/-- `Remove` (lines 115-137): strict bounds check (`throw`); a frame with
zero count is a silent no-op; a non-evictable frame with non-zero count is
fatal (`throw`); otherwise erase from the cache list when the count is at
least `k`, else from the history list, decrement `curr_size_`, zero the
count and clear the flag. -/
def Remove (r : LRUKReplacer) (f : Nat) : Option LRUKReplacer :=
  if f > r.replacerSize then none else
  if r.accessCount f = 0 then some r else
  if ¬ r.isEvictable f then none else
  let ac := fun x => if x = f then 0 else r.accessCount x
  let ev := fun x => if x = f then false else r.isEvictable x
  if r.accessCount f ≥ r.k then
    some { r with accessCount := ac, isEvictable := ev,
                  cacheList := r.cacheList.erase f, currSize := r.currSize - 1 }
  else
    some { r with accessCount := ac, isEvictable := ev,
                  historyList := r.historyList.erase f, currSize := r.currSize - 1 }

end LRUKReplacer

/-- Replacer API calls, for reachability over call sequences. -/
inductive ROp where
  | record (f : Nat)
  | setEvictable (f : Nat) (flag : Bool)
  | evict
  | remove (f : Nat)

/-- One replacer call.  A failed `Evict` returns `false` without mutating,
so the state is kept; a thrown exception (`none`) kills the run. -/
def rstep (r : LRUKReplacer) : ROp → Option LRUKReplacer
  | ROp.record f => r.RecordAccess f
  | ROp.setEvictable f b => r.SetEvictable f b
  | ROp.evict => match r.Evict with
    | some (_, r2) => some r2
    | none => some r
  | ROp.remove f => r.Remove f

/-- Run a sequence of replacer calls from a state. -/
def runR (ops : List ROp) (r : LRUKReplacer) : Option LRUKReplacer :=
  ops.foldl (fun acc op => acc.bind (fun s => rstep s op)) (some r)

/-! ## Buffer pool manager (`src/buffer/buffer_pool_manager_instance.cpp`)

The pool owns the frame array `pages_`, the page table (an
`ExtendibleHashTable<page_id_t, frame_id_t>`), an `LRUKReplacer`, the free
list and the monotonic `next_page_id_`.  The disk manager is an external
collaborator: we model its state as a content map `disk` plus a
chronological `writeLog` of `WritePage` calls, and `ReadPage` as reading
the content map.  Uncaught replacer exceptions abort the process, modelled
as `none`. -/

/-- `INVALID_PAGE_ID` from `common/config.h`. -/
def INVALID_PAGE_ID : Int := -1

/-- Modelled from the spec: the `Page` class header is not in `src/`; the
spec fixes a frame as page id (INVALID when unmapped), a zeroable data
buffer, a pin count and a dirty flag.  The byte buffer is abstracted to a
single token (`0` = zero-filled), which the claims only move around. -/
structure Page where
  page_id : Int
  pin_count : Nat
  is_dirty : Bool
  data : Nat

structure BufferPoolManagerInstance where
  poolSize : Nat
  pages : Nat → Page
  pageTable : ExtendibleHashTable Int Nat
  replacer : LRUKReplacer
  freeList : List Nat
  nextPageId : Int
  disk : Int → Nat
  writeLog : List (Int × Nat)

namespace BufferPoolManagerInstance

/-- The constructor (lines 22-36): fresh table of the configured bucket
size, fresh replacer, every frame initially on the free list, default
(unmapped, unpinned, clean, zeroed) pages. -/
def new (poolSize bucketSize replacerK : Nat) : BufferPoolManagerInstance :=
  ⟨poolSize, fun _ => ⟨INVALID_PAGE_ID, 0, false, 0⟩,
   ExtendibleHashTable.new Int Nat bucketSize,
   LRUKReplacer.new poolSize replacerK,
   List.range poolSize, 0, fun _ => 0, []⟩

/-- `disk_manager_->WritePage(pid, data)`: record the call and update the
disk image. -/
def writePage (s : BufferPoolManagerInstance) (pid : Int) (d : Nat) :
    BufferPoolManagerInstance :=
  { s with disk := fun x => if x = pid then d else s.disk x
           writeLog := s.writeLog ++ [(pid, d)] }

/-- Overwrite one slot of the frame array. -/
def setPage (s : BufferPoolManagerInstance) (f : Nat) (pg : Page) :
    BufferPoolManagerInstance :=
  { s with pages := fun x => if x = f then pg else s.pages x }

/-- `FindEmptyFrameid` (lines 44-60): pop the free list front if possible;
otherwise ask the replacer to evict, write the victim frame back when
dirty, remove its old page-table mapping and invalidate its page id.
`none` models returning `false` (nothing was mutated on that path). -/
def FindEmptyFrameid (s : BufferPoolManagerInstance) :
    Option (Nat × BufferPoolManagerInstance) :=
  match s.freeList with
  | f :: rest => some (f, { s with freeList := rest })
  | [] =>
    match s.replacer.Evict with
    | none => none
    | some (f, rep) =>
      let s1 := { s with replacer := rep }
      let s2 := if (s1.pages f).is_dirty
        then writePage s1 (s1.pages f).page_id (s1.pages f).data else s1
      let s3 := { s2 with
        pageTable := (ExtendibleHashTable.Remove stdHashInt s2.pageTable (s2.pages f).page_id).2 }
      some (f, setPage s3 f { s3.pages f with page_id := INVALID_PAGE_ID })

/-- `NewPgImp` (lines 62-84): fail (`nullptr`, inner `none`) when the free
list is empty and nothing is evictable; otherwise acquire a frame,
allocate the next page id, install the mapping, reset the frame to
`(pid, pin 1, clean, zeroed)`, pin it in the replacer and record an
access.  Outer `none` models an uncaught replacer exception. -/
def NewPgImp (s : BufferPoolManagerInstance) :
    Option (Option (Int × Nat) × BufferPoolManagerInstance) :=
  if s.freeList = [] ∧ s.replacer.Size = 0 then some (none, s) else
  match FindEmptyFrameid s with
  | none => some (none, s)
  | some (f, s1) =>
    let pid := s1.nextPageId
    let s2 := { s1 with nextPageId := s1.nextPageId + 1 }
    let s3 := { s2 with pageTable := ExtendibleHashTable.Insert stdHashInt s2.pageTable pid f }
    let s4 := setPage s3 f ⟨pid, 1, false, 0⟩
    match s4.replacer.SetEvictable f false with
    | none => none
    | some rep1 =>
      match rep1.RecordAccess f with
      | none => none
      | some rep2 => some (some (pid, f), { s4 with replacer := rep2 })

/-- `FetchPgImp` (lines 86-118): the capacity guard is checked FIRST, so a
fetch of a mapped page fails when the free list is empty and nothing is
evictable.  On an index hit: bump the pin count, reassign the page id,
pin in the replacer, record an access, and return without touching the
disk.  On a miss: acquire a frame, install the mapping, reset the frame
and read the page from disk. -/
def FetchPgImp (s : BufferPoolManagerInstance) (pid : Int) :
    Option (Option Nat × BufferPoolManagerInstance) :=
  if s.freeList = [] ∧ s.replacer.Size = 0 then some (none, s) else
  match ExtendibleHashTable.Find stdHashInt s.pageTable pid with
  | some f =>
    let s1 := setPage s f
      { s.pages f with pin_count := (s.pages f).pin_count + 1, page_id := pid }
    match s1.replacer.SetEvictable f false with
    | none => none
    | some rep1 =>
      match rep1.RecordAccess f with
      | none => none
      | some rep2 => some (some f, { s1 with replacer := rep2 })
  | none =>
    match FindEmptyFrameid s with
    | none => some (none, s)
    | some (f, s1) =>
      let s2 := { s1 with pageTable := ExtendibleHashTable.Insert stdHashInt s1.pageTable pid f }
      let s3 := setPage s2 f ⟨pid, 1, false, s2.disk pid⟩
      match s3.replacer.SetEvictable f false with
      | none => none
      | some rep1 =>
        match rep1.RecordAccess f with
        | none => none
        | some rep2 => some (some f, { s3 with replacer := rep2 })

/-- `UnpinPgImp` (lines 120-136): `false` when the page is unmapped or its
pin count is already zero; otherwise decrement the pin count, mark the
frame evictable when it reaches zero, and then OVERWRITE the dirty flag
with the argument (`is_dirty_ = is_dirty`, not `|=`). -/
def UnpinPgImp (s : BufferPoolManagerInstance) (pid : Int) (dirty : Bool) :
    Option (Bool × BufferPoolManagerInstance) :=
  match ExtendibleHashTable.Find stdHashInt s.pageTable pid with
  | none => some (false, s)
  | some f =>
    if (s.pages f).pin_count = 0 then some (false, s) else
    let s1 := setPage s f { s.pages f with pin_count := (s.pages f).pin_count - 1 }
    let after : Option BufferPoolManagerInstance :=
      if (s1.pages f).pin_count = 0 then
        (s1.replacer.SetEvictable f true).map (fun rep => { s1 with replacer := rep })
      else some s1
    after.map (fun s2 => (true, setPage s2 f { s2.pages f with is_dirty := dirty }))

/-- `FlushPgImp` (lines 138-150): `false` when unmapped; when mapped,
write to disk and clear the dirty flag ONLY IF the frame is dirty, and
return `true` either way. -/
def FlushPgImp (s : BufferPoolManagerInstance) (pid : Int) :
    Option (Bool × BufferPoolManagerInstance) :=
  match ExtendibleHashTable.Find stdHashInt s.pageTable pid with
  | none => some (false, s)
  | some f =>
    if (s.pages f).is_dirty then
      let s1 := writePage s pid (s.pages f).data
      some (true, setPage s1 f { s1.pages f with is_dirty := false })
    else some (true, s)

/-- `FlushAllPgsImp` (lines 152-160): write back and clean every dirty
mapped frame, in frame order. -/
def FlushAllPgsImp (s : BufferPoolManagerInstance) : BufferPoolManagerInstance :=
  (List.range s.poolSize).foldl
    (fun acc i =>
      if (acc.pages i).is_dirty ∧ ¬ (acc.pages i).page_id = INVALID_PAGE_ID then
        let a1 := writePage acc (acc.pages i).page_id (acc.pages i).data
        setPage a1 i { a1.pages i with is_dirty := false }
      else acc) s

/-- `DeletePgImp` (lines 162-181): `true` when unmapped (nothing to do);
`false` when still pinned; otherwise drop the mapping, remove the frame
from the replacer (which may throw), reset the frame and push it on the
back of the free list. -/
def DeletePgImp (s : BufferPoolManagerInstance) (pid : Int) :
    Option (Bool × BufferPoolManagerInstance) :=
  match ExtendibleHashTable.Find stdHashInt s.pageTable pid with
  | none => some (true, s)
  | some f =>
    if (s.pages f).pin_count > 0 then some (false, s) else
    let s1 := { s with pageTable := (ExtendibleHashTable.Remove stdHashInt s.pageTable pid).2 }
    match s1.replacer.Remove f with
    | none => none
    | some rep =>
      let s2 := setPage { s1 with replacer := rep } f ⟨INVALID_PAGE_ID, 0, false, 0⟩
      some (true, { s2 with freeList := s2.freeList ++ [f] })

end BufferPoolManagerInstance

/-- Buffer pool API calls, for reachability over call sequences. -/
inductive PoolOp where
  | newPage
  | fetchPage (p : Int)
  | unpinPage (p : Int) (d : Bool)
  | flushPage (p : Int)
  | flushAll
  | deletePage (p : Int)

/-- One pool call (the returned handle/boolean is discarded; `none` kills
the run, modelling an uncaught exception). -/
def pstep (s : BufferPoolManagerInstance) : PoolOp → Option BufferPoolManagerInstance
  | PoolOp.newPage => (s.NewPgImp).map (fun x => x.2)
  | PoolOp.fetchPage p => (s.FetchPgImp p).map (fun x => x.2)
  | PoolOp.unpinPage p d => (s.UnpinPgImp p d).map (fun x => x.2)
  | PoolOp.flushPage p => (s.FlushPgImp p).map (fun x => x.2)
  | PoolOp.flushAll => some s.FlushAllPgsImp
  | PoolOp.deletePage p => (s.DeletePgImp p).map (fun x => x.2)

/-- Run a sequence of pool calls from a state. -/
def runPool (ops : List PoolOp) (s : BufferPoolManagerInstance) :
    Option BufferPoolManagerInstance :=
  ops.foldl (fun acc op => acc.bind (fun t => pstep t op)) (some s)

/-! ## Invariant definitions -/

/-- Structural invariant of the hash table used for C9: the directory has
exactly `2^global_depth` slots and every bucket on the heap has local
depth at most the global depth. -/
def DepthInv {K V : Type} (t : ExtendibleHashTable K V) : Prop :=
  t.dir.length = 2 ^ t.globalDepth ∧ ∀ b ∈ t.buckets, b.depth ≤ t.globalDepth

/-- A key/value pair reachable through the directory: it sits in the
bucket some directory slot dereferences to. -/
def ReachPair {K V : Type} (t : ExtendibleHashTable K V) (kv : K × V) : Prop :=
  ∃ i, i < t.dir.length ∧ kv ∈ (t.bucketAt i).list

/-- Full representation invariant of the extendible hash table (used for
C6): the directory has `2^global_depth` slots, every slot references a
live heap bucket, bucket depths are bounded by the global depth and
bucket capacities equal the configured `bucket_size` (positive); the
items of a slot's bucket agree with the slot index on the low
`local_depth` bits of their hash; and two slots share a bucket exactly
when they agree on the low `local_depth` bits. -/
structure EInv {K V : Type} (hash : K → Nat) (t : ExtendibleHashTable K V) : Prop where
  bsPos : 0 < t.bucketSize
  len : t.dir.length = 2 ^ t.globalDepth
  refs : ∀ r ∈ t.dir, r < t.buckets.length
  depths : ∀ b ∈ t.buckets, b.depth ≤ t.globalDepth
  sizes : ∀ b ∈ t.buckets, b.size = t.bucketSize
  hashAgree : ∀ i, i < t.dir.length → ∀ kv ∈ (t.bucketAt i).list,
      hash kv.1 % 2 ^ (t.bucketAt i).depth = i % 2 ^ (t.bucketAt i).depth
  buddy : ∀ i, i < t.dir.length → ∀ j, j < t.dir.length →
      (t.dir.getD i 0 = t.dir.getD j 0 ↔
        i % 2 ^ (t.bucketAt i).depth = j % 2 ^ (t.bucketAt i).depth)

/-- Pool-wide invariant (used for C6), maintained by every pool call:
the page table satisfies its representation invariant; no pinned frame is
evictable; the free list has no duplicates, holds only unpinned frames,
and no free frame is referenced by any reachable page-table entry; and
every reachable entry `(p, f)` has `frames[f].page_id = p`. -/
structure PInv (s : BufferPoolManagerInstance) : Prop where
  einv : EInv stdHashInt s.pageTable
  pinned : ∀ f, 0 < (s.pages f).pin_count → s.replacer.isEvictable f = false
  freeNodup : s.freeList.Nodup
  freePin : ∀ f ∈ s.freeList, (s.pages f).pin_count = 0
  freeNoRef : ∀ f ∈ s.freeList, ∀ kv, ReachPair s.pageTable kv → kv.2 ≠ f
  pageOf : ∀ kv, ReachPair s.pageTable kv → (s.pages kv.2).page_id = kv.1

/-- Representation invariant of the replacer (used for C5 and C10),
established by every call sequence: the history list holds exactly the
frames with `0 < access_count < k` and the cache list exactly those with
`0 < access_count` and `access_count ≥ k`, both without duplicates; every
counted or evictable frame has passed the bounds check
(`f ≤ replacer_size_`, the check being strict `>`); and `curr_size_`
counts the evictable frames. -/
def Rinv (r : LRUKReplacer) : Prop :=
  (∀ f, f ∈ r.historyList ↔ (0 < r.accessCount f ∧ r.accessCount f < r.k)) ∧
  (∀ f, f ∈ r.cacheList ↔ (0 < r.accessCount f ∧ r.k ≤ r.accessCount f)) ∧
  r.historyList.Nodup ∧ r.cacheList.Nodup ∧
  (∀ f, 0 < r.accessCount f → f ≤ r.replacerSize) ∧
  (∀ f, r.isEvictable f = true → f ≤ r.replacerSize) ∧
  r.currSize = ((Finset.range (r.replacerSize + 1)).filter
    (fun f => r.isEvictable f = true)).card

/-! ## Helper lemmas -/

section EHTLemmas

variable {K V : Type}

/-- A totalized list lookup is a member or the default. -/
theorem getD_mem_or_eq (l : List α) (n : Nat) (d : α) :
    l.getD n d ∈ l ∨ l.getD n d = d := by
  induction l generalizing n with
  | nil => simp [List.getD]
  | cons a l ih =>
    cases n with
    | zero => simp [List.getD]
    | succ m =>
      rcases ih m with h | h
      · exact Or.inl (List.mem_cons_of_mem a (by simpa [List.getD] using h))
      · simp [List.getD] at h ⊢
        exact Or.inr h

/-- An in-range totalized lookup is a member. -/
theorem getD_mem_of_lt (l : List α) {n : Nat} (h : n < l.length) (d : α) :
    l.getD n d ∈ l := by
  induction l generalizing n with
  | nil => simp at h
  | cons a l ih =>
    cases n with
    | zero => simp [List.getD]
    | succ m =>
      have hm := ih (Nat.lt_of_succ_lt_succ h)
      exact List.mem_cons_of_mem a (by simpa [List.getD] using hm)

/-- An out-of-range totalized lookup gives the default. -/
theorem getD_default_of_le (l : List α) {n : Nat} (h : l.length ≤ n) (d : α) :
    l.getD n d = d := by
  induction l generalizing n with
  | nil => simp [List.getD]
  | cons a l ih =>
    cases n with
    | zero => simp at h
    | succ m => simpa [List.getD] using ih (Nat.le_of_succ_le_succ h)

/-- Reading back an in-range write. -/
theorem getD_set_self (l : List α) {n : Nat} (h : n < l.length) (x d : α) :
    (l.set n x).getD n d = x := by
  induction l generalizing n with
  | nil => simp at h
  | cons a l ih =>
    cases n with
    | zero => rfl
    | succ m => simpa [List.getD] using ih (Nat.lt_of_succ_lt_succ h)

/-- Reading any other slot after a write. -/
theorem getD_set_ne (l : List α) {m n : Nat} (h : m ≠ n) (x d : α) :
    (l.set n x).getD m d = l.getD m d := by
  induction l generalizing m n with
  | nil => rfl
  | cons a l ih =>
    cases n with
    | zero =>
      cases m with
      | zero => exact absurd rfl h
      | succ m2 => rfl
    | succ n2 =>
      cases m with
      | zero => rfl
      | succ m2 => simpa [List.getD] using ih (fun hc => h (congrArg Nat.succ hc))

/-- A residue mod `2^d` lifts to one of two residues mod `2^(d+1)`. -/
theorem mod_pow_succ_cases {x d p : Nat} (h : x % 2 ^ d = p) :
    x % 2 ^ (d + 1) = p ∨ x % 2 ^ (d + 1) = p + 2 ^ d := by
  have h1 : x % 2 ^ (d + 1) % 2 ^ d = x % 2 ^ d :=
    Nat.mod_mod_of_dvd x (pow_dvd_pow 2 (Nat.le_succ d))
  have h2 : x % 2 ^ (d + 1) < 2 ^ (d + 1) :=
    Nat.mod_lt _ (by positivity)
  have h3 : (2 : Nat) ^ (d + 1) = 2 ^ d + 2 ^ d := by ring
  by_cases hq : x % 2 ^ (d + 1) < 2 ^ d
  · left
    rw [← h, ← h1]
    exact (Nat.mod_eq_of_lt hq).symm
  · right
    push_neg at hq
    have h5 : x % 2 ^ (d + 1) - 2 ^ d < 2 ^ d := by omega
    have h4 : x % 2 ^ (d + 1) % 2 ^ d = x % 2 ^ (d + 1) - 2 ^ d := by
      rw [Nat.mod_eq_sub_mod hq, Nat.mod_eq_of_lt h5]
    omega

/-- Congruence mod `2^g` descends to mod `2^d` for `d ≤ g`. -/
theorem mod_pow_mono {a b d g : Nat} (hdg : d ≤ g) (h : a % 2 ^ g = b % 2 ^ g) :
    a % 2 ^ d = b % 2 ^ d := by
  have ha := Nat.mod_mod_of_dvd a (pow_dvd_pow 2 hdg)
  have hb := Nat.mod_mod_of_dvd b (pow_dvd_pow 2 hdg)
  rw [← ha, ← hb, h]

/-- `Bucket::Insert` only adds the inserted pair (an upsert rewrites a
matching key's pair to carry the new value). -/
theorem Bucket.InsertB_subset [DecidableEq K] (b : Bucket K V) (k : K) (v : V) :
    ∀ kv ∈ ((b.InsertB k v).2).list, kv = (k, v) ∨ kv ∈ b.list := by
  intro kv hkv
  simp only [Bucket.InsertB] at hkv
  split at hkv
  · exact Or.inr hkv
  · split at hkv
    · simp only [List.mem_map] at hkv
      obtain ⟨kv0, hkv0, hmap⟩ := hkv
      by_cases hk : kv0.1 = k
      · left
        rw [← hmap]
        simp [hk]
      · right
        rw [← hmap]
        simpa [hk] using hkv0
    · simp only [List.mem_append, List.mem_singleton] at hkv
      rcases hkv with h | h
      · exact Or.inr h
      · exact Or.inl h

/-- `Bucket::Insert` never changes the bucket's depth or capacity. -/
theorem Bucket.InsertB_depth_size [DecidableEq K] (b : Bucket K V) (k : K) (v : V) :
    ((b.InsertB k v).2).depth = b.depth ∧ ((b.InsertB k v).2).size = b.size := by
  simp only [Bucket.InsertB]
  split
  · exact ⟨rfl, rfl⟩
  · split <;> exact ⟨rfl, rfl⟩

/-- The item-moving loop of `RedistributeBucket` keeps the sibling
bucket's depth. -/
theorem moveItemsGo_depth [DecidableEq K] (hash : K → Nat) (pre nd : Nat)
    (items : List (K × V)) (acc : List (K × V) × Bucket K V) :
    ((ExtendibleHashTable.moveItemsGo hash pre nd items acc).2).depth = acc.2.depth := by
  induction items generalizing acc with
  | nil => rfl
  | cons kv items ih =>
    rw [ExtendibleHashTable.moveItemsGo, ih]
    split
    · rfl
    · exact (Bucket.InsertB_depth_size acc.2 kv.1 kv.2).1

/-- The item-moving loop keeps the sibling bucket's capacity. -/
theorem moveItemsGo_size [DecidableEq K] (hash : K → Nat) (pre nd : Nat)
    (items : List (K × V)) (acc : List (K × V) × Bucket K V) :
    ((ExtendibleHashTable.moveItemsGo hash pre nd items acc).2).size = acc.2.size := by
  induction items generalizing acc with
  | nil => rfl
  | cons kv items ih =>
    rw [ExtendibleHashTable.moveItemsGo, ih]
    split
    · rfl
    · exact (Bucket.InsertB_depth_size acc.2 kv.1 kv.2).2

/-- Items kept by the moving loop come from the accumulator or are
original items whose hash matches the surviving pattern. -/
theorem moveItemsGo_kept [DecidableEq K] (hash : K → Nat) (pre nd : Nat)
    (items : List (K × V)) (acc : List (K × V) × Bucket K V) :
    ∀ kv ∈ (ExtendibleHashTable.moveItemsGo hash pre nd items acc).1,
      kv ∈ acc.1 ∨ (kv ∈ items ∧ hash kv.1 % 2 ^ nd = pre) := by
  induction items generalizing acc with
  | nil =>
    intro kv h
    exact Or.inl h
  | cons it items ih =>
    intro kv h
    rw [ExtendibleHashTable.moveItemsGo] at h
    by_cases hcond : pre = hash it.1 % 2 ^ nd
    · rw [if_pos hcond] at h
      rcases ih _ kv h with h2 | ⟨h2, h3⟩
      · rcases List.mem_append.1 h2 with h4 | h4
        · exact Or.inl h4
        · obtain rfl : kv = it := by simpa using h4
          exact Or.inr ⟨List.mem_cons_self _ _, hcond.symm⟩
      · exact Or.inr ⟨List.mem_cons_of_mem _ h2, h3⟩
    · rw [if_neg hcond] at h
      rcases ih _ kv h with h2 | ⟨h2, h3⟩
      · exact Or.inl h2
      · exact Or.inr ⟨List.mem_cons_of_mem _ h2, h3⟩

/-- Items in the sibling bucket come from the accumulator or are original
items whose hash does not match the surviving pattern. -/
theorem moveItemsGo_moved [DecidableEq K] (hash : K → Nat) (pre nd : Nat)
    (items : List (K × V)) (acc : List (K × V) × Bucket K V) :
    ∀ kv ∈ ((ExtendibleHashTable.moveItemsGo hash pre nd items acc).2).list,
      kv ∈ acc.2.list ∨ (kv ∈ items ∧ ¬ hash kv.1 % 2 ^ nd = pre) := by
  induction items generalizing acc with
  | nil =>
    intro kv h
    exact Or.inl h
  | cons it items ih =>
    intro kv h
    rw [ExtendibleHashTable.moveItemsGo] at h
    by_cases hcond : pre = hash it.1 % 2 ^ nd
    · rw [if_pos hcond] at h
      rcases ih _ kv h with h2 | ⟨h2, h3⟩
      · exact Or.inl h2
      · exact Or.inr ⟨List.mem_cons_of_mem _ h2, h3⟩
    · rw [if_neg hcond] at h
      rcases ih _ kv h with h2 | ⟨h2, h3⟩
      · rcases Bucket.InsertB_subset acc.2 it.1 it.2 kv h2 with h4 | h4
        · obtain rfl : kv = it := by rw [h4]
          exact Or.inr ⟨List.mem_cons_self _ _, fun hc => hcond hc.symm⟩
        · exact Or.inl h4
      · exact Or.inr ⟨List.mem_cons_of_mem _ h2, h3⟩

/-- Entries of the repointed directory are the sibling id or old entries. -/
theorem dirRepointGo_mem (nd pre nb : Nat) (js : List Nat) (dirs : List Nat) :
    ∀ r ∈ ExtendibleHashTable.dirRepointGo nd pre nb js dirs, r = nb ∨ r ∈ dirs := by
  induction js generalizing dirs with
  | nil =>
    intro r h
    exact Or.inr h
  | cons j js ih =>
    intro r h
    rw [ExtendibleHashTable.dirRepointGo] at h
    by_cases hcond : j % 2 ^ (nd - 1) = pre ∧ ¬ j % 2 ^ nd = pre
    · rw [if_pos hcond] at h
      rcases ih _ r h with h2 | h2
      · exact Or.inl h2
      · rcases List.mem_or_eq_of_mem_set h2 with h3 | h3
        · exact Or.inr h3
        · exact Or.inl h3
    · rw [if_neg hcond] at h
      exact ih _ r h

/-- Pointwise description of the repointed directory: a slot is redirected
at the sibling exactly when its index is listed, matches the sibling
pattern and is in range. -/
theorem dirRepointGo_getD (nd pre nb : Nat) (js : List Nat) (dirs : List Nat) (x : Nat) :
    (ExtendibleHashTable.dirRepointGo nd pre nb js dirs).getD x 0 =
      if x ∈ js ∧ (x % 2 ^ (nd - 1) = pre ∧ ¬ x % 2 ^ nd = pre) ∧ x < dirs.length
      then nb else dirs.getD x 0 := by
  induction js generalizing dirs with
  | nil => simp [ExtendibleHashTable.dirRepointGo]
  | cons j js ih =>
    rw [ExtendibleHashTable.dirRepointGo]
    by_cases hcond : j % 2 ^ (nd - 1) = pre ∧ ¬ j % 2 ^ nd = pre
    · rw [if_pos hcond, ih]
      rw [List.length_set]
      by_cases hx : x ∈ js ∧ (x % 2 ^ (nd - 1) = pre ∧ ¬ x % 2 ^ nd = pre) ∧ x < dirs.length
      · rw [if_pos hx, if_pos ⟨List.mem_cons_of_mem _ hx.1, hx.2⟩]
      · rw [if_neg hx]
        by_cases hxj : x = j
        · subst hxj
          by_cases hlen : x < dirs.length
          · rw [getD_set_self dirs hlen, if_pos ⟨List.mem_cons_self _ _, hcond, hlen⟩]
          · rw [if_neg (fun hc => hlen hc.2.2)]
            rw [getD_default_of_le _ (by rw [List.length_set]; omega),
              getD_default_of_le _ (by omega)]
        · rw [getD_set_ne dirs hxj]
          rw [if_neg ?_]
          intro hc
          rcases List.mem_cons.1 hc.1 with h4 | h4
          · exact hxj h4
          · exact hx ⟨h4, hc.2⟩
    · rw [if_neg hcond, ih]
      by_cases hx : x ∈ js ∧ (x % 2 ^ (nd - 1) = pre ∧ ¬ x % 2 ^ nd = pre) ∧ x < dirs.length
      · rw [if_pos hx, if_pos ⟨List.mem_cons_of_mem _ hx.1, hx.2⟩]
      · rw [if_neg hx, if_neg ?_]
        intro hc
        rcases List.mem_cons.1 hc.1 with h4 | h4
        · subst h4
          exact hcond hc.2.1
        · exact hx ⟨h4, hc.2⟩

/-- The directory-repointing loop of `RedistributeBucket` keeps the
directory length. -/
theorem dirRepointGo_length (nd pre nb : Nat) (js : List Nat) (d : List Nat) :
    (ExtendibleHashTable.dirRepointGo nd pre nb js d).length = d.length := by
  induction js generalizing d with
  | nil => rfl
  | cons j js ih =>
    rw [ExtendibleHashTable.dirRepointGo, ih]
    split
    · exact List.length_set d j nb
    · rfl

/-- Equal directory entries dereference to the same bucket. -/
theorem bucketAt_congr {K V : Type} {t : ExtendibleHashTable K V} {i j : Nat}
    (h : t.dir.getD i 0 = t.dir.getD j 0) : t.bucketAt i = t.bucketAt j := by
  rw [ExtendibleHashTable.bucketAt, ExtendibleHashTable.bucketAt, h]

/-- A dereferenced slot's bucket is on the heap. -/
theorem EInv.bucketAt_mem {K V : Type} {hash : K → Nat} {t : ExtendibleHashTable K V}
    (h : EInv hash t) {i : Nat} (hi : i < t.dir.length) :
    t.bucketAt i ∈ t.buckets := by
  have href := h.refs _ (getD_mem_of_lt t.dir hi 0)
  exact getD_mem_of_lt t.buckets href Bucket.dflt

/-- Local depths of dereferenced buckets are bounded by the global depth. -/
theorem EInv.slot_depth_le {K V : Type} {hash : K → Nat} {t : ExtendibleHashTable K V}
    (h : EInv hash t) {i : Nat} (hi : i < t.dir.length) :
    (t.bucketAt i).depth ≤ t.globalDepth :=
  h.depths _ (h.bucketAt_mem hi)

/-- Key locality: a reachable pair's key addresses (via `IndexOf`) the
very slot family its bucket is shared by. -/
theorem EInv.key_local {K V : Type} {hash : K → Nat} {t : ExtendibleHashTable K V}
    (h : EInv hash t) {i : Nat} (hi : i < t.dir.length)
    {kv : K × V} (hkv : kv ∈ (t.bucketAt i).list) :
    t.dir.getD (ExtendibleHashTable.IndexOf hash t kv.1) 0 = t.dir.getD i 0 ∧
    ExtendibleHashTable.IndexOf hash t kv.1 < t.dir.length := by
  have hjlen : ExtendibleHashTable.IndexOf hash t kv.1 < t.dir.length := by
    rw [h.len]
    exact Nat.mod_lt _ (by positivity)
  refine ⟨?_, hjlen⟩
  have hd := h.slot_depth_le hi
  have hagree := h.hashAgree i hi kv hkv
  have hmod : i % 2 ^ (t.bucketAt i).depth
      = ExtendibleHashTable.IndexOf hash t kv.1 % 2 ^ (t.bucketAt i).depth := by
    have h1 : ExtendibleHashTable.IndexOf hash t kv.1 % 2 ^ (t.bucketAt i).depth
        = hash kv.1 % 2 ^ (t.bucketAt i).depth :=
      Nat.mod_mod_of_dvd _ (pow_dvd_pow 2 hd)
    rw [h1, hagree]
  exact ((h.buddy i hi _ hjlen).2 hmod).symm

/-- A successful `Find` returns a reachable pair. -/
theorem EInv.find_some_reach {K V : Type} [DecidableEq K] {hash : K → Nat}
    {t : ExtendibleHashTable K V} (h : EInv hash t) {k : K} {v : V}
    (hf : ExtendibleHashTable.Find hash t k = some v) : ReachPair t (k, v) := by
  have hjlen : ExtendibleHashTable.IndexOf hash t k < t.dir.length := by
    rw [h.len]
    exact Nat.mod_lt _ (by positivity)
  simp only [ExtendibleHashTable.Find, Bucket.FindB, Option.map_eq_some'] at hf
  obtain ⟨kv0, hfind, hv⟩ := hf
  have hmem := List.mem_of_find?_eq_some hfind
  have hkey : kv0.1 = k := by simpa using List.find?_some hfind
  refine ⟨ExtendibleHashTable.IndexOf hash t k, hjlen, ?_⟩
  have : kv0 = (k, v) := by
    rcases kv0 with ⟨k0, v0⟩
    simp only at hkey hv
    rw [hkey, hv]
  rw [← this]
  exact hmem

/-- A failed `Find` means no reachable pair carries the key. -/
theorem EInv.find_none_reach {K V : Type} [DecidableEq K] {hash : K → Nat}
    {t : ExtendibleHashTable K V} (h : EInv hash t) {k : K}
    (hf : ExtendibleHashTable.Find hash t k = none) :
    ∀ v, ¬ ReachPair t (k, v) := by
  intro v hreach
  obtain ⟨i, hi, hmem⟩ := hreach
  obtain ⟨hdir, hjlen⟩ := h.key_local hi hmem
  simp only at hdir
  have hbeq : t.bucketAt (ExtendibleHashTable.IndexOf hash t k) = t.bucketAt i :=
    bucketAt_congr hdir
  simp only [ExtendibleHashTable.Find, Bucket.FindB, Option.map_eq_none', hbeq] at hf
  rw [List.find?_eq_none] at hf
  exact absurd (by simp : decide ((k, v).1 = k) = true) (by simpa using hf (k, v) hmem)

/-- `Remove k` preserves the representation invariant, keeps only pairs
already reachable, and removes every reachable pair with key `k`. -/
theorem EInv.remove_spec {K V : Type} [DecidableEq K] {hash : K → Nat}
    {t : ExtendibleHashTable K V} (h : EInv hash t) (k : K) :
    EInv hash (ExtendibleHashTable.Remove hash t k).2 ∧
    (∀ kv, ReachPair (ExtendibleHashTable.Remove hash t k).2 kv →
      ReachPair t kv ∧ ¬ kv.1 = k) := by
  have hjlen : ExtendibleHashTable.IndexOf hash t k < t.dir.length := by
    rw [h.len]
    exact Nat.mod_lt _ (by positivity)
  have hbId : t.dir.getD (ExtendibleHashTable.IndexOf hash t k) 0 < t.buckets.length :=
    h.refs _ (getD_mem_of_lt t.dir hjlen 0)
  have hBmem : t.bucketAt (ExtendibleHashTable.IndexOf hash t k) ∈ t.buckets :=
    h.bucketAt_mem hjlen
  -- how any slot dereferences after the removal
  have hAt : ∀ i, ((ExtendibleHashTable.Remove hash t k).2).bucketAt i =
      (if t.dir.getD i 0 = t.dir.getD (ExtendibleHashTable.IndexOf hash t k) 0
       then { t.bucketAt (ExtendibleHashTable.IndexOf hash t k) with
              list := (t.bucketAt (ExtendibleHashTable.IndexOf hash t k)).list.filter
                (fun kv => ! decide (kv.1 = k)) }
       else t.bucketAt i) := by
    intro i
    show (t.buckets.set _ _).getD (t.dir.getD i 0) Bucket.dflt = _
    by_cases hdir : t.dir.getD i 0 = t.dir.getD (ExtendibleHashTable.IndexOf hash t k) 0
    · rw [if_pos hdir, hdir, getD_set_self t.buckets hbId]
      rfl
    · rw [if_neg hdir, getD_set_ne t.buckets hdir]
      rfl
  constructor
  · refine ⟨h.bsPos, h.len, ?_, ?_, ?_, ?_, ?_⟩
    · intro r hr
      show r < (t.buckets.set _ _).length
      rw [List.length_set]
      exact h.refs r hr
    · intro b hb
      rcases List.mem_or_eq_of_mem_set hb with hb | hb
      · exact h.depths b hb
      · rw [hb]
        show (t.bucketAt (ExtendibleHashTable.IndexOf hash t k)).depth ≤ t.globalDepth
        exact h.depths _ hBmem
    · intro b hb
      rcases List.mem_or_eq_of_mem_set hb with hb | hb
      · exact h.sizes b hb
      · rw [hb]
        show (t.bucketAt (ExtendibleHashTable.IndexOf hash t k)).size = t.bucketSize
        exact h.sizes _ hBmem
    · intro i hi kv hkv
      rw [hAt i] at hkv
      show hash kv.1 % 2 ^ (((ExtendibleHashTable.Remove hash t k).2).bucketAt i).depth
        = i % 2 ^ (((ExtendibleHashTable.Remove hash t k).2).bucketAt i).depth
      rw [hAt i]
      by_cases hdir : t.dir.getD i 0 = t.dir.getD (ExtendibleHashTable.IndexOf hash t k) 0
      · rw [if_pos hdir] at hkv ⊢
        have hkv2 := List.mem_of_mem_filter hkv
        have hbeq : t.bucketAt i = t.bucketAt (ExtendibleHashTable.IndexOf hash t k) :=
          bucketAt_congr hdir
        have := h.hashAgree i hi kv (by rw [hbeq]; exact hkv2)
        rw [hbeq] at this
        exact this
      · rw [if_neg hdir] at hkv ⊢
        exact h.hashAgree i hi kv hkv
    · intro i hi j hj
      show ((ExtendibleHashTable.Remove hash t k).2).dir.getD i 0 =
          ((ExtendibleHashTable.Remove hash t k).2).dir.getD j 0 ↔ _
      have hdepth : (((ExtendibleHashTable.Remove hash t k).2).bucketAt i).depth
          = (t.bucketAt i).depth := by
        rw [hAt i]
        by_cases hdir : t.dir.getD i 0 = t.dir.getD (ExtendibleHashTable.IndexOf hash t k) 0
        · rw [if_pos hdir]
          have hbeq : t.bucketAt i = t.bucketAt (ExtendibleHashTable.IndexOf hash t k) :=
            bucketAt_congr hdir
          rw [hbeq]
        · rw [if_neg hdir]
      rw [hdepth]
      exact h.buddy i hi j hj
  · intro kv hreach
    obtain ⟨i, hi, hmem⟩ := hreach
    rw [hAt i] at hmem
    by_cases hdir : t.dir.getD i 0 = t.dir.getD (ExtendibleHashTable.IndexOf hash t k) 0
    · rw [if_pos hdir] at hmem
      have hkv2 := List.mem_of_mem_filter hmem
      have hne : ¬ kv.1 = k := by
        have := List.of_mem_filter hmem
        simpa using this
      have hbeq : t.bucketAt i = t.bucketAt (ExtendibleHashTable.IndexOf hash t k) :=
        bucketAt_congr hdir
      refine ⟨⟨i, by simpa using hi, ?_⟩, hne⟩
      rw [hbeq]
      exact hkv2
    · rw [if_neg hdir] at hmem
      refine ⟨⟨i, by simpa using hi, hmem⟩, ?_⟩
      intro hk
      refine hdir ?_
      have := (h.key_local hi hmem).1
      rw [hk] at this
      exact this.symm

/-- The single `Bucket::Insert` into the key's slot preserves the
representation invariant and adds at most the inserted pair. -/
theorem EInv.insertAtSlot_spec {K V : Type} [DecidableEq K] {hash : K → Nat}
    {t : ExtendibleHashTable K V} (h : EInv hash t) (k : K) (v : V) :
    EInv hash (t.insertAtSlot (ExtendibleHashTable.IndexOf hash t k) k v) ∧
    (∀ kv, ReachPair (t.insertAtSlot (ExtendibleHashTable.IndexOf hash t k) k v) kv →
      kv = (k, v) ∨ ReachPair t kv) := by
  have hilen : ExtendibleHashTable.IndexOf hash t k < t.dir.length := by
    rw [h.len]
    exact Nat.mod_lt _ (by positivity)
  have hbId : t.dir.getD (ExtendibleHashTable.IndexOf hash t k) 0 < t.buckets.length :=
    h.refs _ (getD_mem_of_lt t.dir hilen 0)
  have hBmem : t.bucketAt (ExtendibleHashTable.IndexOf hash t k) ∈ t.buckets :=
    h.bucketAt_mem hilen
  have hAt : ∀ j, (t.insertAtSlot (ExtendibleHashTable.IndexOf hash t k) k v).bucketAt j =
      (if t.dir.getD j 0 = t.dir.getD (ExtendibleHashTable.IndexOf hash t k) 0
       then ((t.bucketAt (ExtendibleHashTable.IndexOf hash t k)).InsertB k v).2
       else t.bucketAt j) := by
    intro j
    show (t.buckets.set _ _).getD (t.dir.getD j 0) Bucket.dflt = _
    by_cases hdir : t.dir.getD j 0 = t.dir.getD (ExtendibleHashTable.IndexOf hash t k) 0
    · rw [if_pos hdir, hdir, getD_set_self t.buckets hbId]
      rfl
    · rw [if_neg hdir, getD_set_ne t.buckets hdir]
      rfl
  have hidx : hash k % 2 ^ (t.bucketAt (ExtendibleHashTable.IndexOf hash t k)).depth
      = ExtendibleHashTable.IndexOf hash t k
        % 2 ^ (t.bucketAt (ExtendibleHashTable.IndexOf hash t k)).depth := by
    have hd := h.slot_depth_le hilen
    exact (Nat.mod_mod_of_dvd _ (pow_dvd_pow 2 hd)).symm
  constructor
  · refine ⟨h.bsPos, h.len, ?_, ?_, ?_, ?_, ?_⟩
    · intro r hr
      show r < (t.buckets.set _ _).length
      rw [List.length_set]
      exact h.refs r hr
    · intro b hb
      rcases List.mem_or_eq_of_mem_set hb with hb | hb
      · exact h.depths b hb
      · rw [hb, (Bucket.InsertB_depth_size _ k v).1]
        exact h.depths _ hBmem
    · intro b hb
      rcases List.mem_or_eq_of_mem_set hb with hb | hb
      · exact h.sizes b hb
      · rw [hb, (Bucket.InsertB_depth_size _ k v).2]
        exact h.sizes _ hBmem
    · intro j hj kv hkv
      rw [hAt j] at hkv
      show hash kv.1 % 2 ^ ((t.insertAtSlot _ k v).bucketAt j).depth
        = j % 2 ^ ((t.insertAtSlot _ k v).bucketAt j).depth
      rw [hAt j]
      by_cases hdir : t.dir.getD j 0 = t.dir.getD (ExtendibleHashTable.IndexOf hash t k) 0
      · rw [if_pos hdir] at hkv ⊢
        rw [(Bucket.InsertB_depth_size _ k v).1]
        have hbeq : t.bucketAt j = t.bucketAt (ExtendibleHashTable.IndexOf hash t k) :=
          bucketAt_congr hdir
        have hjb : j % 2 ^ (t.bucketAt j).depth
            = ExtendibleHashTable.IndexOf hash t k % 2 ^ (t.bucketAt j).depth :=
          (h.buddy j hj _ hilen).1 hdir
        rcases Bucket.InsertB_subset _ k v kv hkv with hkv2 | hkv2
        · rw [hkv2]
          show hash k % 2 ^ _ = _
          rw [← hbeq] at hidx ⊢
          rw [hidx, ← hjb]
        · have := h.hashAgree j hj kv (by rw [hbeq]; exact hkv2)
          rw [hbeq] at this
          exact this
      · rw [if_neg hdir] at hkv ⊢
        exact h.hashAgree j hj kv hkv
    · intro i hi j hj
      show (t.insertAtSlot _ k v).dir.getD i 0 = (t.insertAtSlot _ k v).dir.getD j 0 ↔ _
      have hdepth : ((t.insertAtSlot (ExtendibleHashTable.IndexOf hash t k) k v).bucketAt i).depth
          = (t.bucketAt i).depth := by
        rw [hAt i]
        by_cases hdir : t.dir.getD i 0 = t.dir.getD (ExtendibleHashTable.IndexOf hash t k) 0
        · rw [if_pos hdir, (Bucket.InsertB_depth_size _ k v).1]
          exact congrArg Bucket.depth (bucketAt_congr hdir).symm
        · rw [if_neg hdir]
      rw [hdepth]
      exact h.buddy i hi j hj
  · intro kv hreach
    obtain ⟨j, hj, hmem⟩ := hreach
    rw [hAt j] at hmem
    by_cases hdir : t.dir.getD j 0 = t.dir.getD (ExtendibleHashTable.IndexOf hash t k) 0
    · rw [if_pos hdir] at hmem
      rcases Bucket.InsertB_subset _ k v kv hmem with hkv2 | hkv2
      · exact Or.inl hkv2
      · refine Or.inr ⟨j, by simpa using hj, ?_⟩
        rw [bucketAt_congr hdir]
        exact hkv2
    · rw [if_neg hdir] at hmem
      exact Or.inr ⟨j, by simpa using hj, hmem⟩

/-- After directory doubling, the recomputed slot for a key dereferences
to the same shared bucket as before. -/
theorem doubled_dir_getD {t : ExtendibleHashTable K V}
    (hlen : t.dir.length = 2 ^ t.globalDepth) (hk : Nat) :
    (t.dir ++ t.dir.take (2 ^ t.globalDepth)).getD (hk % 2 ^ (t.globalDepth + 1)) 0 =
      t.dir.getD (hk % 2 ^ t.globalDepth) 0 := by
  have htake : t.dir.take (2 ^ t.globalDepth) = t.dir := by
    rw [← hlen]
    exact List.take_length t.dir
  rw [htake]
  set g := t.globalDepth
  have hmod : hk % 2 ^ (g + 1) % 2 ^ g = hk % 2 ^ g := by
    rw [Nat.mod_mod_of_dvd]
    exact pow_dvd_pow 2 (Nat.le_succ g)
  by_cases hlt : hk % 2 ^ (g + 1) < 2 ^ g
  · rw [List.getD_append _ _ _ _ (by rw [hlen]; exact hlt)]
    rw [← hmod, Nat.mod_eq_of_lt hlt]
  · push_neg at hlt
    have hub : hk % 2 ^ (g + 1) < 2 ^ (g + 1) :=
      Nat.mod_lt _ (Nat.pos_pow_of_pos _ (by norm_num))
    have hsub : hk % 2 ^ (g + 1) - 2 ^ g < 2 ^ g := by
      have : (2 : Nat) ^ (g + 1) = 2 ^ g + 2 ^ g := by ring
      omega
    have hgetr : (t.dir ++ t.dir).getD (hk % 2 ^ (g + 1)) 0 =
        t.dir.getD (hk % 2 ^ (g + 1) - 2 ^ g) 0 := by
      rw [List.getD_append_right _ _ _ _ (by rw [hlen]; exact hlt)]
      rw [hlen]
    rw [hgetr]
    congr 1
    have : hk % 2 ^ (g + 1) % 2 ^ g = hk % 2 ^ (g + 1) - 2 ^ g := by
      rw [Nat.mod_eq_sub_mod (by omega)]
      rw [Nat.mod_eq_of_lt hsub]
    omega

/-- Directory doubling (appending a copy of the directory and bumping the
global depth) preserves the representation invariant; each new slot
dereferences to the bucket of its low-bits counterpart and no pair
becomes reachable or unreachable. -/
theorem EInv.double_spec {K V : Type} {hash : K → Nat} {t : ExtendibleHashTable K V}
    (h : EInv hash t) :
    EInv hash { t with
      dir := t.dir ++ t.dir.take (2 ^ t.globalDepth)
      globalDepth := t.globalDepth + 1 } ∧
    (∀ m, m < 2 ^ (t.globalDepth + 1) →
      (t.dir ++ t.dir.take (2 ^ t.globalDepth)).getD m 0
        = t.dir.getD (m % 2 ^ t.globalDepth) 0) ∧
    (∀ kv, ReachPair { t with
        dir := t.dir ++ t.dir.take (2 ^ t.globalDepth)
        globalDepth := t.globalDepth + 1 } kv → ReachPair t kv) := by
  have hgetD : ∀ m : Nat, m < 2 ^ (t.globalDepth + 1) →
      (t.dir ++ t.dir.take (2 ^ t.globalDepth)).getD m 0
      = t.dir.getD (m % 2 ^ t.globalDepth) 0 := by
    intro m hm
    have := doubled_dir_getD h.len m
    rwa [Nat.mod_eq_of_lt hm] at this
  have hlen2 : (t.dir ++ t.dir.take (2 ^ t.globalDepth)).length = 2 ^ (t.globalDepth + 1) := by
    rw [List.length_append, List.length_take, h.len]
    have h2 : (2 : Nat) ^ (t.globalDepth + 1) = 2 ^ t.globalDepth + 2 ^ t.globalDepth := by
      ring
    omega
  have hbAt : ∀ i : Nat, i < 2 ^ (t.globalDepth + 1) → ({ t with
      dir := t.dir ++ t.dir.take (2 ^ t.globalDepth)
      globalDepth := t.globalDepth + 1 } : ExtendibleHashTable K V).bucketAt i
      = t.bucketAt (i % 2 ^ t.globalDepth) := by
    intro i hi
    show t.buckets.getD ((t.dir ++ t.dir.take (2 ^ t.globalDepth)).getD i 0) Bucket.dflt = _
    rw [hgetD i hi]
    rfl
  have hmlt : ∀ i : Nat, i % 2 ^ t.globalDepth < t.dir.length := by
    intro i
    rw [h.len]
    exact Nat.mod_lt _ (by positivity)
  refine ⟨⟨h.bsPos, hlen2, ?_, ?_, ?_, ?_, ?_⟩, hgetD, ?_⟩
  · intro r hr
    rcases List.mem_append.1 hr with hr | hr
    · exact h.refs r hr
    · exact h.refs r (List.take_subset _ _ hr)
  · intro b hb
    exact Nat.le_succ_of_le (h.depths b hb)
  · intro b hb
    exact h.sizes b hb
  · intro i hi kv hkv
    rw [hlen2] at hi
    rw [hbAt i hi] at hkv
    show hash kv.1 % 2 ^ (({ t with
        dir := t.dir ++ t.dir.take (2 ^ t.globalDepth)
        globalDepth := t.globalDepth + 1 } : ExtendibleHashTable K V).bucketAt i).depth = _
    rw [hbAt i hi]
    have hagree := h.hashAgree _ (hmlt i) kv hkv
    have hd := h.slot_depth_le (hmlt i)
    have hcoll : i % 2 ^ t.globalDepth % 2 ^ (t.bucketAt (i % 2 ^ t.globalDepth)).depth
        = i % 2 ^ (t.bucketAt (i % 2 ^ t.globalDepth)).depth :=
      Nat.mod_mod_of_dvd i (pow_dvd_pow 2 hd)
    rw [hagree, hcoll]
  · intro i hi j hj
    rw [hlen2] at hi hj
    show (t.dir ++ t.dir.take (2 ^ t.globalDepth)).getD i 0
        = (t.dir ++ t.dir.take (2 ^ t.globalDepth)).getD j 0 ↔ _
    rw [hgetD i hi, hgetD j hj]
    have hbuddy := h.buddy _ (hmlt i) _ (hmlt j)
    rw [hbuddy]
    have hd := h.slot_depth_le (hmlt i)
    have hci : i % 2 ^ t.globalDepth % 2 ^ (t.bucketAt (i % 2 ^ t.globalDepth)).depth
        = i % 2 ^ (t.bucketAt (i % 2 ^ t.globalDepth)).depth :=
      Nat.mod_mod_of_dvd i (pow_dvd_pow 2 hd)
    have hcj : j % 2 ^ t.globalDepth % 2 ^ (t.bucketAt (i % 2 ^ t.globalDepth)).depth
        = j % 2 ^ (t.bucketAt (i % 2 ^ t.globalDepth)).depth :=
      Nat.mod_mod_of_dvd j (pow_dvd_pow 2 hd)
    rw [hci, hcj, hbAt i hi]
  · intro kv hreach
    obtain ⟨i, hi, hmem⟩ := hreach
    rw [hlen2] at hi
    rw [hbAt i hi] at hmem
    exact ⟨i % 2 ^ t.globalDepth, hmlt i, hmem⟩

/-- `RedistributeBucket` on a slot whose bucket holds `a :: l`, written
out with the surviving pattern `hash a.1` masked to `new_depth - 1` bits
(`a` is the first item, as in the source). -/
theorem RedistributeBucket_eq {K V : Type} [DecidableEq K] (hash : K → Nat)
    (t : ExtendibleHashTable K V) (s : Nat) {a : K × V} {l : List (K × V)}
    (hlist : (t.buckets.getD (t.dir.getD s 0) Bucket.dflt).list = a :: l) :
    t.RedistributeBucket hash s = { t with
      numBuckets := t.numBuckets + 1
      buckets := (t.buckets.set (t.dir.getD s 0)
          ⟨(t.buckets.getD (t.dir.getD s 0) Bucket.dflt).size,
            (t.buckets.getD (t.dir.getD s 0) Bucket.dflt).depth + 1,
            (ExtendibleHashTable.moveItemsGo hash
              (hash a.1 % 2 ^ ((t.buckets.getD (t.dir.getD s 0) Bucket.dflt).depth + 1 - 1))
              ((t.buckets.getD (t.dir.getD s 0) Bucket.dflt).depth + 1)
              (a :: l)
              ([], ⟨t.bucketSize,
                    (t.buckets.getD (t.dir.getD s 0) Bucket.dflt).depth + 1, []⟩)).1⟩)
        ++ [(ExtendibleHashTable.moveItemsGo hash
              (hash a.1 % 2 ^ ((t.buckets.getD (t.dir.getD s 0) Bucket.dflt).depth + 1 - 1))
              ((t.buckets.getD (t.dir.getD s 0) Bucket.dflt).depth + 1)
              (a :: l)
              ([], ⟨t.bucketSize,
                    (t.buckets.getD (t.dir.getD s 0) Bucket.dflt).depth + 1, []⟩)).2]
      dir := ExtendibleHashTable.dirRepointGo
          ((t.buckets.getD (t.dir.getD s 0) Bucket.dflt).depth + 1)
          (hash a.1 % 2 ^ ((t.buckets.getD (t.dir.getD s 0) Bucket.dflt).depth + 1 - 1))
          t.buckets.length
          (List.range (2 ^ t.globalDepth)) t.dir } := by
  simp only [ExtendibleHashTable.RedistributeBucket, hlist]

/-- Splitting a full, strictly-shallower-than-global bucket preserves the
representation invariant and moves pairs around without creating any. -/
theorem EInv.redistribute_spec {K V : Type} [DecidableEq K] {hash : K → Nat}
    {t : ExtendibleHashTable K V} (h : EInv hash t) {s : Nat}
    (hs : s < t.dir.length)
    (hfull : (t.bucketAt s).IsFull = true)
    (hlt : (t.bucketAt s).depth < t.globalDepth) :
    EInv hash (t.RedistributeBucket hash s) ∧
    (∀ kv, ReachPair (t.RedistributeBucket hash s) kv → ReachPair t kv) := by
  have hslt : s < 2 ^ t.globalDepth := h.len ▸ hs
  have hbIdlt : t.dir.getD s 0 < t.buckets.length := h.refs _ (getD_mem_of_lt t.dir hs 0)
  have hBmem : t.bucketAt s ∈ t.buckets := h.bucketAt_mem hs
  have hBsize : (t.bucketAt s).size = t.bucketSize := h.sizes _ hBmem
  obtain ⟨a, l, hlist⟩ : ∃ a l,
      (t.buckets.getD (t.dir.getD s 0) Bucket.dflt).list = a :: l := by
    rcases hL : (t.buckets.getD (t.dir.getD s 0) Bucket.dflt).list with - | ⟨a, l⟩
    · exfalso
      rw [Bucket.IsFull] at hfull
      have hL2 : (t.bucketAt s).list = [] := hL
      rw [hL2] at hfull
      simp only [List.length_nil, beq_iff_eq] at hfull
      have := h.bsPos
      omega
    · exact ⟨a, l, rfl⟩
  rw [RedistributeBucket_eq hash t s hlist]
  set B := t.buckets.getD (t.dir.getD s 0) Bucket.dflt with hB
  set P := hash a.1 % 2 ^ (B.depth + 1 - 1) with hPdef
  set M := ExtendibleHashTable.moveItemsGo hash P (B.depth + 1) (a :: l)
    ([], ⟨t.bucketSize, B.depth + 1, []⟩) with hMdef
  set D2 := ExtendibleHashTable.dirRepointGo (B.depth + 1) P t.buckets.length
    (List.range (2 ^ t.globalDepth)) t.dir with hD2def
  have hBAt : t.bucketAt s = B := rfl
  have hdlt : B.depth < t.globalDepth := by rw [← hBAt]; exact hlt
  have hP2 : P = hash a.1 % 2 ^ B.depth := by rw [hPdef, Nat.add_sub_cancel]
  have hkeyP : ∀ kv ∈ B.list, hash kv.1 % 2 ^ B.depth = s % 2 ^ B.depth := by
    intro kv hkv
    have := h.hashAgree s hs kv (by rw [hBAt]; exact hkv)
    rw [hBAt] at this
    exact this
  have hP : P = s % 2 ^ B.depth := by
    rw [hP2]
    exact hkeyP a (by rw [hlist]; exact List.mem_cons_self a l)
  have hPlt : P < 2 ^ B.depth := by
    rw [hP]
    exact Nat.mod_lt _ (by positivity)
  have hfam : ∀ j, j < 2 ^ t.globalDepth →
      (t.dir.getD j 0 = t.dir.getD s 0 ↔ j % 2 ^ B.depth = P) := by
    intro j hj
    have hb := h.buddy s hs j (by rw [h.len]; exact hj)
    rw [hBAt] at hb
    rw [hP]
    exact ⟨fun he => (hb.1 he.symm).symm, fun he => (hb.2 he.symm).symm⟩
  have hndc : B.depth + 1 - 1 = B.depth := by omega
  have hD2 : ∀ x, x < 2 ^ t.globalDepth → D2.getD x 0 =
      (if x % 2 ^ B.depth = P ∧ ¬ x % 2 ^ (B.depth + 1) = P
       then t.buckets.length else t.dir.getD x 0) := by
    intro x hx
    rw [hD2def, dirRepointGo_getD, hndc]
    by_cases hc : x % 2 ^ B.depth = P ∧ ¬ x % 2 ^ (B.depth + 1) = P
    · rw [if_pos ⟨List.mem_range.2 hx, hc, by rw [h.len]; exact hx⟩, if_pos hc]
    · rw [if_neg (fun hc2 => hc hc2.2.1), if_neg hc]
  have hlenset : (t.buckets.set (t.dir.getD s 0) ⟨B.size, B.depth + 1, M.1⟩).length
      = t.buckets.length := List.length_set t.buckets _ _
  have hgetNb : ((t.buckets.set (t.dir.getD s 0) ⟨B.size, B.depth + 1, M.1⟩)
      ++ [M.2]).getD t.buckets.length Bucket.dflt = M.2 := by
    rw [List.getD_append_right _ _ _ _ hlenset.le, hlenset, Nat.sub_self]
    rfl
  have hgetKept : ∀ r, r = t.dir.getD s 0 →
      ((t.buckets.set (t.dir.getD s 0) ⟨B.size, B.depth + 1, M.1⟩)
        ++ [M.2]).getD r Bucket.dflt = ⟨B.size, B.depth + 1, M.1⟩ := by
    intro r hr
    subst hr
    rw [List.getD_append _ _ _ _ (by rw [hlenset]; exact hbIdlt)]
    exact getD_set_self t.buckets hbIdlt _ _
  have hgetOld : ∀ r, ¬ r = t.dir.getD s 0 → r < t.buckets.length →
      ((t.buckets.set (t.dir.getD s 0) ⟨B.size, B.depth + 1, M.1⟩)
        ++ [M.2]).getD r Bucket.dflt = t.buckets.getD r Bucket.dflt := by
    intro r hr hrlt
    rw [List.getD_append _ _ _ _ (by rw [hlenset]; exact hrlt)]
    exact getD_set_ne t.buckets hr _ _
  have hKmem : ∀ kv ∈ M.1, kv ∈ B.list ∧ hash kv.1 % 2 ^ (B.depth + 1) = P := by
    intro kv hkv
    rcases moveItemsGo_kept hash P (B.depth + 1) (a :: l) _ kv (by rw [← hMdef]; exact hkv)
      with h2 | ⟨h2, h3⟩
    · exact absurd h2 (List.not_mem_nil kv)
    · rw [hlist]
      exact ⟨h2, h3⟩
  have hNmem : ∀ kv ∈ M.2.list, kv ∈ B.list ∧ ¬ hash kv.1 % 2 ^ (B.depth + 1) = P := by
    intro kv hkv
    rcases moveItemsGo_moved hash P (B.depth + 1) (a :: l) _ kv (by rw [← hMdef]; exact hkv)
      with h2 | ⟨h2, h3⟩
    · exact absurd h2 (List.not_mem_nil kv)
    · rw [hlist]
      exact ⟨h2, h3⟩
  have hNdepth : M.2.depth = B.depth + 1 := by
    rw [hMdef]
    exact moveItemsGo_depth hash P (B.depth + 1) (a :: l) _
  have hNsize : M.2.size = t.bucketSize := by
    rw [hMdef]
    exact moveItemsGo_size hash P (B.depth + 1) (a :: l) _
  have hsibmask : ∀ x, x % 2 ^ B.depth = P ∧ ¬ x % 2 ^ (B.depth + 1) = P →
      x % 2 ^ (B.depth + 1) = P + 2 ^ B.depth := by
    intro x hx
    exact (mod_pow_succ_cases hx.1).resolve_left hx.2
  have hkeptmask : ∀ x, x % 2 ^ B.depth = P →
      ¬ (x % 2 ^ B.depth = P ∧ ¬ x % 2 ^ (B.depth + 1) = P) →
      x % 2 ^ (B.depth + 1) = P := by
    intro x hA hn
    by_cases hBc : x % 2 ^ (B.depth + 1) = P
    · exact hBc
    · exact absurd ⟨hA, hBc⟩ hn
  have hlen2 : D2.length = 2 ^ t.globalDepth := by
    rw [hD2def, dirRepointGo_length]
    exact h.len
  -- classification of how any slot dereferences afterwards
  have hAtSib : ∀ x, x < 2 ^ t.globalDepth →
      (x % 2 ^ B.depth = P ∧ ¬ x % 2 ^ (B.depth + 1) = P) →
      ((t.buckets.set (t.dir.getD s 0) ⟨B.size, B.depth + 1, M.1⟩)
        ++ [M.2]).getD (D2.getD x 0) Bucket.dflt = M.2 := by
    intro x hx hc
    rw [hD2 x hx, if_pos hc, hgetNb]
  have hAtKept : ∀ x, x < 2 ^ t.globalDepth → t.dir.getD x 0 = t.dir.getD s 0 →
      ¬ (x % 2 ^ B.depth = P ∧ ¬ x % 2 ^ (B.depth + 1) = P) →
      ((t.buckets.set (t.dir.getD s 0) ⟨B.size, B.depth + 1, M.1⟩)
        ++ [M.2]).getD (D2.getD x 0) Bucket.dflt = ⟨B.size, B.depth + 1, M.1⟩ := by
    intro x hx hdir hc
    rw [hD2 x hx, if_neg hc]
    exact hgetKept _ hdir
  have hAtOut : ∀ x, x < 2 ^ t.globalDepth → ¬ t.dir.getD x 0 = t.dir.getD s 0 →
      D2.getD x 0 = t.dir.getD x 0 ∧
      ((t.buckets.set (t.dir.getD s 0) ⟨B.size, B.depth + 1, M.1⟩)
        ++ [M.2]).getD (D2.getD x 0) Bucket.dflt = t.bucketAt x := by
    intro x hx hdir
    have hc : ¬ (x % 2 ^ B.depth = P ∧ ¬ x % 2 ^ (B.depth + 1) = P) := by
      intro hc
      exact hdir ((hfam x hx).2 hc.1)
    have hd2x : D2.getD x 0 = t.dir.getD x 0 := by rw [hD2 x hx, if_neg hc]
    refine ⟨hd2x, ?_⟩
    rw [hd2x]
    exact hgetOld _ hdir (h.refs _ (getD_mem_of_lt t.dir (by rw [h.len]; exact hx) 0))
  constructor
  · refine ⟨h.bsPos, ?_, ?_, ?_, ?_, ?_, ?_⟩
    · exact hlen2
    · intro r hr
      show r < ((t.buckets.set (t.dir.getD s 0) ⟨B.size, B.depth + 1, M.1⟩) ++ [M.2]).length
      rw [List.length_append, hlenset,
        show ([M.2] : List (Bucket K V)).length = 1 from rfl]
      rcases dirRepointGo_mem _ _ _ _ _ r (by rw [← hD2def]; exact hr) with h2 | h2
      · omega
      · have := h.refs r h2
        omega
    · intro b hb
      rcases List.mem_append.1 hb with hb | hb
      · rcases List.mem_or_eq_of_mem_set hb with hb | hb
        · exact h.depths b hb
        · rw [hb]
          exact hdlt
      · rw [List.mem_singleton.1 hb, hNdepth]
        exact hdlt
    · intro b hb
      rcases List.mem_append.1 hb with hb | hb
      · rcases List.mem_or_eq_of_mem_set hb with hb | hb
        · exact h.sizes b hb
        · rw [hb]
          show B.size = t.bucketSize
          rw [← hBAt]
          exact hBsize
      · rw [List.mem_singleton.1 hb]
        exact hNsize
    · -- hash agreement
      intro x hx kv hkv
      rw [hlen2] at hx
      show hash kv.1 % 2 ^ ((((t.buckets.set (t.dir.getD s 0) ⟨B.size, B.depth + 1, M.1⟩)
          ++ [M.2]).getD (D2.getD x 0) Bucket.dflt)).depth
        = x % 2 ^ ((((t.buckets.set (t.dir.getD s 0) ⟨B.size, B.depth + 1, M.1⟩)
          ++ [M.2]).getD (D2.getD x 0) Bucket.dflt)).depth
      have hkv2 : kv ∈ (((t.buckets.set (t.dir.getD s 0) ⟨B.size, B.depth + 1, M.1⟩)
          ++ [M.2]).getD (D2.getD x 0) Bucket.dflt).list := hkv
      by_cases hc : x % 2 ^ B.depth = P ∧ ¬ x % 2 ^ (B.depth + 1) = P
      · rw [hAtSib x hx hc] at hkv2 ⊢
        rw [hNdepth]
        obtain ⟨hmB, hmask⟩ := hNmem kv hkv2
        have := hkeyP kv hmB
        rw [← hP] at this
        rw [hsibmask x hc]
        exact (mod_pow_succ_cases this).resolve_left hmask
      · by_cases hdir : t.dir.getD x 0 = t.dir.getD s 0
        · rw [hAtKept x hx hdir hc] at hkv2 ⊢
          obtain ⟨hmB, hmask⟩ := hKmem kv hkv2
          show hash kv.1 % 2 ^ (B.depth + 1) = x % 2 ^ (B.depth + 1)
          rw [hmask, hkeptmask x ((hfam x hx).1 hdir) hc]
        · rw [(hAtOut x hx hdir).2] at hkv2 ⊢
          exact h.hashAgree x (by rw [h.len]; exact hx) kv hkv2
    · -- buddy structure
      intro i hi j hj
      rw [hlen2] at hi hj
      show D2.getD i 0 = D2.getD j 0 ↔
        i % 2 ^ ((((t.buckets.set (t.dir.getD s 0) ⟨B.size, B.depth + 1, M.1⟩)
          ++ [M.2]).getD (D2.getD i 0) Bucket.dflt)).depth
        = j % 2 ^ ((((t.buckets.set (t.dir.getD s 0) ⟨B.size, B.depth + 1, M.1⟩)
          ++ [M.2]).getD (D2.getD i 0) Bucket.dflt)).depth
      have hnbne : ∀ y, y < 2 ^ t.globalDepth → ¬ t.dir.getD y 0 = t.buckets.length := by
        intro y hy hc
        have := h.refs _ (getD_mem_of_lt t.dir (by rw [h.len]; exact hy) 0)
        omega
      by_cases hci : i % 2 ^ B.depth = P ∧ ¬ i % 2 ^ (B.depth + 1) = P
      · rw [hAtSib i hi hci, hNdepth]
        have hd2i : D2.getD i 0 = t.buckets.length := by rw [hD2 i hi, if_pos hci]
        by_cases hcj : j % 2 ^ B.depth = P ∧ ¬ j % 2 ^ (B.depth + 1) = P
        · have hd2j : D2.getD j 0 = t.buckets.length := by rw [hD2 j hj, if_pos hcj]
          exact iff_of_true (by rw [hd2i, hd2j])
            (by rw [hsibmask i hci, hsibmask j hcj])
        · by_cases hdirj : t.dir.getD j 0 = t.dir.getD s 0
          · have hd2j : D2.getD j 0 = t.dir.getD j 0 := by rw [hD2 j hj, if_neg hcj]
            refine iff_of_false ?_ ?_
            · rw [hd2i, hd2j, hdirj]
              intro hc
              exact hnbne s hslt hc.symm
            · rw [hsibmask i hci, hkeptmask j ((hfam j hj).1 hdirj) hcj]
              have : (0 : Nat) < 2 ^ B.depth := by positivity
              omega
          · have hd2j : D2.getD j 0 = t.dir.getD j 0 := (hAtOut j hj hdirj).1
            refine iff_of_false ?_ ?_
            · rw [hd2i, hd2j]
              intro hc
              exact hnbne j hj hc.symm
            · rw [hsibmask i hci]
              intro hc
              have hjd : j % 2 ^ B.depth = P := by
                have h2 : j % 2 ^ (B.depth + 1) % 2 ^ B.depth = j % 2 ^ B.depth :=
                  Nat.mod_mod_of_dvd j (pow_dvd_pow 2 (Nat.le_succ _))
                rw [← hc, Nat.add_mod_right, Nat.mod_eq_of_lt hPlt] at h2
                exact h2.symm
              exact hdirj ((hfam j hj).2 hjd)
      · by_cases hdiri : t.dir.getD i 0 = t.dir.getD s 0
        · rw [hAtKept i hi hdiri hci]
          have hd2i : D2.getD i 0 = t.dir.getD i 0 := by rw [hD2 i hi, if_neg hci]
          show D2.getD i 0 = D2.getD j 0 ↔ i % 2 ^ (B.depth + 1) = j % 2 ^ (B.depth + 1)
          by_cases hcj : j % 2 ^ B.depth = P ∧ ¬ j % 2 ^ (B.depth + 1) = P
          · have hd2j : D2.getD j 0 = t.buckets.length := by rw [hD2 j hj, if_pos hcj]
            refine iff_of_false ?_ ?_
            · rw [hd2i, hd2j, hdiri]
              exact hnbne s hslt
            · rw [hsibmask j hcj, hkeptmask i ((hfam i hi).1 hdiri) hci]
              have : (0 : Nat) < 2 ^ B.depth := by positivity
              omega
          · by_cases hdirj : t.dir.getD j 0 = t.dir.getD s 0
            · have hd2j : D2.getD j 0 = t.dir.getD j 0 := by rw [hD2 j hj, if_neg hcj]
              exact iff_of_true (by rw [hd2i, hd2j, hdiri, hdirj])
                (by rw [hkeptmask i ((hfam i hi).1 hdiri) hci,
                       hkeptmask j ((hfam j hj).1 hdirj) hcj])
            · have hd2j : D2.getD j 0 = t.dir.getD j 0 := (hAtOut j hj hdirj).1
              refine iff_of_false ?_ ?_
              · rw [hd2i, hd2j, hdiri]
                intro hc
                exact hdirj hc.symm
              · rw [hkeptmask i ((hfam i hi).1 hdiri) hci]
                intro hc
                have hjd : j % 2 ^ B.depth = P := by
                  have h2 : j % 2 ^ (B.depth + 1) % 2 ^ B.depth = j % 2 ^ B.depth :=
                    Nat.mod_mod_of_dvd j (pow_dvd_pow 2 (Nat.le_succ _))
                  rw [← hc] at h2
                  rw [← h2, Nat.mod_eq_of_lt hPlt]
                exact hdirj ((hfam j hj).2 hjd)
        · -- i outside the split family
          have hout := hAtOut i hi hdiri
          rw [hout.2]
          have hdepi := h.slot_depth_le (show i < t.dir.length by rw [h.len]; exact hi)
          by_cases hcj : j % 2 ^ B.depth = P ∧ ¬ j % 2 ^ (B.depth + 1) = P
          · have hd2j : D2.getD j 0 = t.buckets.length := by rw [hD2 j hj, if_pos hcj]
            refine iff_of_false ?_ ?_
            · rw [hout.1, hd2j]
              exact hnbne i hi
            · intro hc
              have hb := (h.buddy i (by rw [h.len]; exact hi) j (by rw [h.len]; exact hj)).2 hc
              have hdirj : t.dir.getD j 0 = t.dir.getD s 0 := (hfam j hj).2 hcj.1
              rw [hb] at hdiri
              exact hdiri hdirj
          · by_cases hdirj : t.dir.getD j 0 = t.dir.getD s 0
            · have hd2j : D2.getD j 0 = t.dir.getD j 0 := by rw [hD2 j hj, if_neg hcj]
              refine iff_of_false ?_ ?_
              · rw [hout.1, hd2j]
                intro hc
                exact hdiri (hc.trans hdirj)
              · intro hc
                have hb := (h.buddy i (by rw [h.len]; exact hi) j (by rw [h.len]; exact hj)).2 hc
                rw [hb] at hdiri
                exact hdiri hdirj
            · have houtj := hAtOut j hj hdirj
              rw [hout.1, houtj.1]
              exact h.buddy i (by rw [h.len]; exact hi) j (by rw [h.len]; exact hj)
  · -- pairs only move
    intro kv hreach
    obtain ⟨x, hx, hmem⟩ := hreach
    have hx2 : x < 2 ^ t.globalDepth := by
      rw [← hlen2]
      exact hx
    by_cases hc : x % 2 ^ B.depth = P ∧ ¬ x % 2 ^ (B.depth + 1) = P
    · rw [show ((({ t with
          numBuckets := t.numBuckets + 1
          buckets := (t.buckets.set (t.dir.getD s 0) ⟨B.size, B.depth + 1, M.1⟩) ++ [M.2]
          dir := D2 } : ExtendibleHashTable K V)).bucketAt x)
          = M.2 from hAtSib x hx2 hc] at hmem
      exact ⟨s, hs, by rw [hBAt]; exact (hNmem kv hmem).1⟩
    · by_cases hdir : t.dir.getD x 0 = t.dir.getD s 0
      · rw [show ((({ t with
            numBuckets := t.numBuckets + 1
            buckets := (t.buckets.set (t.dir.getD s 0) ⟨B.size, B.depth + 1, M.1⟩) ++ [M.2]
            dir := D2 } : ExtendibleHashTable K V)).bucketAt x)
            = (⟨B.size, B.depth + 1, M.1⟩ : Bucket K V) from hAtKept x hx2 hdir hc] at hmem
        exact ⟨s, hs, by rw [hBAt]; exact (hKmem kv hmem).1⟩
      · rw [show ((({ t with
            numBuckets := t.numBuckets + 1
            buckets := (t.buckets.set (t.dir.getD s 0) ⟨B.size, B.depth + 1, M.1⟩) ++ [M.2]
            dir := D2 } : ExtendibleHashTable K V)).bucketAt x)
            = t.bucketAt x from (hAtOut x hx2 hdir).2] at hmem
        exact ⟨x, by rw [h.len]; exact hx2, hmem⟩

/-- `RedistributeBucket` never touches the global depth. -/
theorem RedistributeBucket_globalDepth {K V : Type} [DecidableEq K] (hash : K → Nat)
    (t : ExtendibleHashTable K V) (i : Nat) :
    (t.RedistributeBucket hash i).globalDepth = t.globalDepth := rfl

/-- `Insert` preserves the representation invariant; any pair reachable
afterwards is the inserted pair or was reachable before. -/
theorem EInv.Insert_spec {K V : Type} [DecidableEq K] {hash : K → Nat}
    {t : ExtendibleHashTable K V} (h : EInv hash t) (k : K) (v : V) :
    EInv hash (ExtendibleHashTable.Insert hash t k v) ∧
    (∀ kv, ReachPair (ExtendibleHashTable.Insert hash t k v) kv →
      kv = (k, v) ∨ ReachPair t kv) := by
  have hi0len : ExtendibleHashTable.IndexOf hash t k < t.dir.length := by
    rw [h.len]
    exact Nat.mod_lt _ (by positivity)
  by_cases hfull : (t.bucketAt (ExtendibleHashTable.IndexOf hash t k)).IsFull = true
  · by_cases hg : t.globalDepth = (t.bucketAt (ExtendibleHashTable.IndexOf hash t k)).depth
    · -- full bucket at maximal depth: double, split, insert
      have hEq : ExtendibleHashTable.Insert hash t k v =
          ExtendibleHashTable.insertAtSlot
            (ExtendibleHashTable.RedistributeBucket hash
              { t with
                dir := t.dir ++ t.dir.take (2 ^ t.globalDepth)
                globalDepth := t.globalDepth + 1 }
              (ExtendibleHashTable.IndexOf hash
                { t with
                  dir := t.dir ++ t.dir.take (2 ^ t.globalDepth)
                  globalDepth := t.globalDepth + 1 } k))
            (ExtendibleHashTable.IndexOf hash
              { t with
                dir := t.dir ++ t.dir.take (2 ^ t.globalDepth)
                globalDepth := t.globalDepth + 1 } k) k v := by
        simp only [ExtendibleHashTable.Insert]
        rw [if_pos hfull, if_pos hg]
      obtain ⟨h1, hslots, hreach1⟩ := h.double_spec
      set t1 : ExtendibleHashTable K V := { t with
        dir := t.dir ++ t.dir.take (2 ^ t.globalDepth)
        globalDepth := t.globalDepth + 1 } with ht1
      have hi1len : ExtendibleHashTable.IndexOf hash t1 k < t1.dir.length := by
        rw [h1.len]
        exact Nat.mod_lt _ (by positivity)
      have hi1lt : ExtendibleHashTable.IndexOf hash t1 k < 2 ^ (t.globalDepth + 1) :=
        Nat.mod_lt _ (by positivity)
      have hmodcollapse : ExtendibleHashTable.IndexOf hash t1 k % 2 ^ t.globalDepth
          = ExtendibleHashTable.IndexOf hash t k := by
        show hash k % 2 ^ (t.globalDepth + 1) % 2 ^ t.globalDepth = hash k % 2 ^ t.globalDepth
        exact Nat.mod_mod_of_dvd _ (pow_dvd_pow 2 (Nat.le_succ _))
      have hb1 : t1.bucketAt (ExtendibleHashTable.IndexOf hash t1 k)
          = t.bucketAt (ExtendibleHashTable.IndexOf hash t k) := by
        show t1.buckets.getD (t1.dir.getD (ExtendibleHashTable.IndexOf hash t1 k) 0)
            Bucket.dflt = _
        have hd : t1.dir.getD (ExtendibleHashTable.IndexOf hash t1 k) 0
            = t.dir.getD (ExtendibleHashTable.IndexOf hash t k) 0 := by
          rw [show t1.dir = t.dir ++ t.dir.take (2 ^ t.globalDepth) from rfl,
            hslots _ hi1lt, hmodcollapse]
        rw [hd]
        rfl
      have hfull1 : (t1.bucketAt (ExtendibleHashTable.IndexOf hash t1 k)).IsFull = true := by
        rw [hb1]
        exact hfull
      have hlt1 : (t1.bucketAt (ExtendibleHashTable.IndexOf hash t1 k)).depth
          < t1.globalDepth := by
        rw [hb1]
        show (t.bucketAt (ExtendibleHashTable.IndexOf hash t k)).depth < t.globalDepth + 1
        omega
      obtain ⟨h2, hreach2⟩ := h1.redistribute_spec hi1len hfull1 hlt1
      have hIdx : ExtendibleHashTable.IndexOf hash
          (ExtendibleHashTable.RedistributeBucket hash t1
            (ExtendibleHashTable.IndexOf hash t1 k)) k
          = ExtendibleHashTable.IndexOf hash t1 k := by
        show hash k % 2 ^ (ExtendibleHashTable.RedistributeBucket hash t1
          (ExtendibleHashTable.IndexOf hash t1 k)).globalDepth = _
        rw [RedistributeBucket_globalDepth]
        rfl
      obtain ⟨h3, hreach3⟩ := h2.insertAtSlot_spec k v
      rw [hIdx] at h3 hreach3
      rw [hEq]
      refine ⟨h3, ?_⟩
      intro kv hkv
      rcases hreach3 kv hkv with hkv | hkv
      · exact Or.inl hkv
      · exact Or.inr (hreach1 kv (hreach2 kv hkv))
    · -- full bucket strictly below the global depth: split in place, insert
      have hEq : ExtendibleHashTable.Insert hash t k v =
          ExtendibleHashTable.insertAtSlot
            (ExtendibleHashTable.RedistributeBucket hash t
              (ExtendibleHashTable.IndexOf hash t k))
            (ExtendibleHashTable.IndexOf hash t k) k v := by
        simp only [ExtendibleHashTable.Insert]
        rw [if_pos hfull, if_neg hg]
      have hlt1 : (t.bucketAt (ExtendibleHashTable.IndexOf hash t k)).depth
          < t.globalDepth :=
        lt_of_le_of_ne (h.slot_depth_le hi0len) (fun hc => hg hc.symm)
      obtain ⟨h2, hreach2⟩ := h.redistribute_spec hi0len hfull hlt1
      have hIdx : ExtendibleHashTable.IndexOf hash
          (ExtendibleHashTable.RedistributeBucket hash t
            (ExtendibleHashTable.IndexOf hash t k)) k
          = ExtendibleHashTable.IndexOf hash t k := by
        show hash k % 2 ^ (ExtendibleHashTable.RedistributeBucket hash t
          (ExtendibleHashTable.IndexOf hash t k)).globalDepth = _
        rw [RedistributeBucket_globalDepth]
        rfl
      obtain ⟨h3, hreach3⟩ := h2.insertAtSlot_spec k v
      rw [hIdx] at h3 hreach3
      rw [hEq]
      refine ⟨h3, ?_⟩
      intro kv hkv
      rcases hreach3 kv hkv with hkv | hkv
      · exact Or.inl hkv
      · exact Or.inr (hreach2 kv hkv)
  · -- room at the slot: plain upsert
    have hEq : ExtendibleHashTable.Insert hash t k v =
        ExtendibleHashTable.insertAtSlot t (ExtendibleHashTable.IndexOf hash t k) k v := by
      simp only [ExtendibleHashTable.Insert]
      rw [if_neg hfull]
    rw [hEq]
    exact h.insertAtSlot_spec k v

/-- `insertAtSlot` preserves the depth invariant. -/
theorem DepthInv_insertAtSlot [DecidableEq K] {t : ExtendibleHashTable K V}
    (h : DepthInv t) (i : Nat) (k : K) (v : V) :
    DepthInv (t.insertAtSlot i k v) := by
  obtain ⟨hlen, hdep⟩ := h
  refine ⟨hlen, ?_⟩
  intro b hb
  simp only [ExtendibleHashTable.insertAtSlot] at hb
  rcases List.mem_or_eq_of_mem_set hb with hb | hb
  · exact hdep b hb
  · subst hb
    rw [(Bucket.InsertB_depth_size _ k v).1]
    rcases getD_mem_or_eq t.buckets (t.dir.getD i 0) Bucket.dflt with hm | hm
    · exact hdep _ hm
    · rw [hm]
      exact Nat.zero_le _

/-- `RedistributeBucket` preserves the depth invariant provided the split
bucket's depth is strictly below the global depth. -/
theorem DepthInv_RedistributeBucket [DecidableEq K] (hash : K → Nat)
    {t : ExtendibleHashTable K V} {i : Nat} (h : DepthInv t)
    (hlt : (t.bucketAt i).depth < t.globalDepth) :
    DepthInv (t.RedistributeBucket hash i) := by
  obtain ⟨hlen, hdep⟩ := h
  have hlt1 : (t.buckets.getD (t.dir.getD i 0) Bucket.dflt).depth + 1 ≤ t.globalDepth := hlt
  constructor
  · show (ExtendibleHashTable.dirRepointGo _ _ _ _ t.dir).length = _
    rw [dirRepointGo_length]
    exact hlen
  · intro b hb
    simp only [ExtendibleHashTable.RedistributeBucket, List.mem_append,
      List.mem_singleton] at hb
    rcases hb with hb | hb
    · rcases List.mem_or_eq_of_mem_set hb with hb | hb
      · exact hdep b hb
      · subst hb
        exact hlt1
    · subst hb
      rw [moveItemsGo_depth]
      exact hlt1

/-- `Insert` preserves the depth invariant. -/
theorem DepthInv_Insert [DecidableEq K] (hash : K → Nat)
    {t : ExtendibleHashTable K V} (h : DepthInv t) (k : K) (v : V) :
    DepthInv (t.Insert hash k v) := by
  obtain ⟨hlen, hdep⟩ := h
  have hb0 : (t.bucketAt (ExtendibleHashTable.IndexOf hash t k)).depth ≤ t.globalDepth := by
    rcases getD_mem_or_eq t.buckets
      (t.dir.getD (ExtendibleHashTable.IndexOf hash t k) 0) Bucket.dflt with hm | hm
    · exact hdep _ hm
    · show (t.buckets.getD _ Bucket.dflt).depth ≤ _
      rw [hm]
      exact Nat.zero_le _
  simp only [ExtendibleHashTable.Insert]
  by_cases hfull : (t.bucketAt (ExtendibleHashTable.IndexOf hash t k)).IsFull = true
  · rw [if_pos hfull]
    by_cases heq : t.globalDepth = (t.bucketAt (ExtendibleHashTable.IndexOf hash t k)).depth
    · rw [if_pos heq]
      apply DepthInv_insertAtSlot
      apply DepthInv_RedistributeBucket
      · refine ⟨?_, ?_⟩
        · simp only [List.length_append]
          rw [List.length_take, hlen]
          simp [Nat.pow_succ, Nat.mul_two]
        · intro b hb
          exact Nat.le_succ_of_le (hdep b hb)
      · have hba : ExtendibleHashTable.bucketAt
            { t with
              dir := t.dir ++ t.dir.take (2 ^ t.globalDepth)
              globalDepth := t.globalDepth + 1 }
            (ExtendibleHashTable.IndexOf hash
              { t with
                dir := t.dir ++ t.dir.take (2 ^ t.globalDepth)
                globalDepth := t.globalDepth + 1 } k) =
            t.bucketAt (ExtendibleHashTable.IndexOf hash t k) := by
          simp only [ExtendibleHashTable.bucketAt, ExtendibleHashTable.IndexOf]
          rw [doubled_dir_getD hlen (hash k)]
        rw [hba, ← heq]
        exact Nat.lt_succ_self _
    · rw [if_neg heq]
      apply DepthInv_insertAtSlot
      apply DepthInv_RedistributeBucket
      · exact ⟨hlen, hdep⟩
      · exact Nat.lt_of_le_of_ne hb0 (fun hc => heq hc.symm)
  · rw [if_neg hfull]
    exact DepthInv_insertAtSlot ⟨hlen, hdep⟩ _ k v

end EHTLemmas

/-- A successful `Evict` implies a non-zero `curr_size_` (the function
checks `curr_size_ == 0` first). -/
theorem LRUKReplacer.Evict_currSize_ne_zero {r : LRUKReplacer} {x : Nat × LRUKReplacer}
    (h : r.Evict = some x) : r.currSize ≠ 0 := by
  intro h0
  simp [LRUKReplacer.Evict, h0] at h

/-! ## Claim theorems -/

/-- **C1** (code bug): the claim says a clean unpin never clears a
previously set dirty flag, but `UnpinPgImp` executes
`pages_[frame_id].is_dirty_ = is_dirty` — plain assignment, not `|=`.
On a pool of size 2: `new_page` (page 0), `fetch_page(0)` (pin count 2),
`unpin_page(0, true)` sets the flag, and the later `unpin_page(0, false)`
clears it again. -/
theorem c1_clean_unpin_clears_dirty_flag :
    (runPool [PoolOp.newPage, PoolOp.fetchPage 0, PoolOp.unpinPage 0 true]
        (BufferPoolManagerInstance.new 2 4 2)).map
      (fun s => (s.pages 0).is_dirty) = some true ∧
    (runPool [PoolOp.newPage, PoolOp.fetchPage 0,
              PoolOp.unpinPage 0 true, PoolOp.unpinPage 0 false]
        (BufferPoolManagerInstance.new 2 4 2)).map
      (fun s => (s.pages 0).is_dirty) = some false := by
  decide

/-- **C2** (code bug): the claim says `fetch_page(p)` succeeds whenever
`p` is mapped, failure being possible only for unmapped pages.  But
`FetchPgImp` checks `free_list_.empty() && replacer_->Size() == 0` BEFORE
the page-table lookup: on a pool of size 1, after `new_page` (page 0
mapped and pinned), `fetch_page(0)` returns `nullptr` although page 0 is
mapped at frame 0. -/
theorem c2_fetch_mapped_page_fails_when_exhausted :
    (runPool [PoolOp.newPage] (BufferPoolManagerInstance.new 1 4 2)).bind
      (fun s => ExtendibleHashTable.Find stdHashInt s.pageTable 0) = some 0 ∧
    (runPool [PoolOp.newPage] (BufferPoolManagerInstance.new 1 4 2)).bind
      (fun s => (s.FetchPgImp 0).map (fun x => x.1.isSome)) = some false := by
  decide

/-- **C3** (code bug): the claim says `insert` upserts and retries after a
split until the item is stored.  But `Insert` performs at most ONE split
and then a single `Bucket::Insert`, which refuses when the bucket is still
full (`Bucket::Insert` checks fullness before the upsert scan).  With
`bucket_size = 1`: `insert(0, 10)`, then `insert(0, 20)` doubles the
directory and splits, but key 0's bucket still holds `(0, 10)` and is
full, so the pair `(0, 20)` is silently dropped: `find(0)` returns the old
value 10. -/
theorem c3_second_insert_silently_dropped :
    (runInserts [(0, 10), (0, 20)] (ExtendibleHashTable.new Int Int 1)).GetNumBuckets = 2 ∧
    ExtendibleHashTable.Find stdHashInt
      (runInserts [(0, 10), (0, 20)] (ExtendibleHashTable.new Int Int 1)) 0 = some 10 := by
  decide

/-- **C7** (code bug): the claim (and the spec, twice) says any replacer
operation on `f ≥ capacity` is fatal.  The code checks
`frame_id > static_cast<int>(replacer_size_)` — strictly greater — so the
out-of-range frame id `f = capacity` is silently accepted by
`RecordAccess`, `SetEvictable` and `Remove` (only `f = capacity + 1`
onwards throws). -/
theorem c7_frame_id_equal_capacity_accepted :
    ((LRUKReplacer.new 3 2).RecordAccess 3).isSome = true ∧
    ((LRUKReplacer.new 3 2).SetEvictable 3 true).isSome = true ∧
    ((LRUKReplacer.new 3 2).Remove 3).isSome = true ∧
    ((LRUKReplacer.new 3 2).RecordAccess 4).isSome = false ∧
    ((LRUKReplacer.new 3 2).SetEvictable 4 true).isSome = false ∧
    ((LRUKReplacer.new 3 2).Remove 4).isSome = false := by
  decide

/-- **C8** (counterexample): the claim says a mapped `flush_page(p)`
writes the frame's buffer to disk.  On a pool of size 1 with page 0
mapped and CLEAN, `flush_page(0)` returns `true` but performs no
`WritePage` call at all (the write log stays empty). -/
theorem c8_clean_flush_writes_nothing :
    (runPool [PoolOp.newPage] (BufferPoolManagerInstance.new 1 4 2)).bind
      (fun s => ExtendibleHashTable.Find stdHashInt s.pageTable 0) = some 0 ∧
    (runPool [PoolOp.newPage] (BufferPoolManagerInstance.new 1 4 2)).map
      (fun s => (s.pages 0).is_dirty) = some false ∧
    (runPool [PoolOp.newPage, PoolOp.flushPage 0]
        (BufferPoolManagerInstance.new 1 4 2)).map (fun s => s.writeLog) = some [] := by
  decide

/-- **C8** (amended): `flush_page(p)` returns `false` and changes nothing
when `p` is unmapped; when `p` is mapped it returns `true` and leaves
`is_dirty = false`, but writes the frame's buffer to disk only when the
frame was dirty — a mapped clean page is not re-written. -/
theorem c8_flush_page_semantics (s : BufferPoolManagerInstance) (p : Int) :
    (ExtendibleHashTable.Find stdHashInt s.pageTable p = none →
      s.FlushPgImp p = some (false, s)) ∧
    (∀ f, ExtendibleHashTable.Find stdHashInt s.pageTable p = some f →
      ∃ s2, s.FlushPgImp p = some (true, s2) ∧
        (s2.pages f).is_dirty = false ∧
        ((s.pages f).is_dirty = true →
          s2.writeLog = s.writeLog ++ [(p, (s.pages f).data)] ∧
          s2.disk p = (s.pages f).data) ∧
        ((s.pages f).is_dirty = false → s2 = s)) := by
  constructor
  · intro h
    simp [BufferPoolManagerInstance.FlushPgImp, h]
  · intro f h
    by_cases hd : (s.pages f).is_dirty = true
    · simp only [BufferPoolManagerInstance.FlushPgImp, h, hd, if_true]
      refine ⟨_, rfl, ?_, ?_, ?_⟩
      · simp [BufferPoolManagerInstance.setPage, BufferPoolManagerInstance.writePage]
      · intro _
        simp [BufferPoolManagerInstance.setPage, BufferPoolManagerInstance.writePage]
      · intro hc
        simp [hd] at hc
    · simp only [Bool.not_eq_true] at hd
      refine ⟨s, ?_, hd, ?_, fun _ => rfl⟩
      · simp [BufferPoolManagerInstance.FlushPgImp, h, hd]
      · intro hc
        simp [hd] at hc

/-- Witness for C8 at a concrete reachable pool: size 1, `new_page`, frame
written dirty via `unpin(0, true)`; flushing page 0 succeeds, cleans the
frame and appends the expected `WritePage` record. -/
theorem c8_flush_page_semantics_witness :
    ((Option.getD
        (runPool [PoolOp.newPage, PoolOp.unpinPage 0 true]
          (BufferPoolManagerInstance.new 1 4 2))
        (BufferPoolManagerInstance.new 1 4 2)).FlushPgImp 0).map
      (fun x => x.1) = some true ∧
    ((Option.getD
        (runPool [PoolOp.newPage, PoolOp.unpinPage 0 true]
          (BufferPoolManagerInstance.new 1 4 2))
        (BufferPoolManagerInstance.new 1 4 2)).FlushPgImp 0).map
      (fun x => ((x.2.pages 0).is_dirty, x.2.writeLog)) = some (false, [(0, 0)]) := by
  obtain ⟨s2, h1, h2, h3, -⟩ :=
    (c8_flush_page_semantics
      (Option.getD
        (runPool [PoolOp.newPage, PoolOp.unpinPage 0 true]
          (BufferPoolManagerInstance.new 1 4 2))
        (BufferPoolManagerInstance.new 1 4 2)) 0).2 0 (by decide)
  obtain ⟨h4, -⟩ := h3 (by decide)
  rw [h1]
  refine ⟨rfl, ?_⟩
  simp only [Option.map_some']
  rw [h2, h4]
  decide

/-- **C4**: whenever `new_page`, or `fetch_page` of an unmapped page,
acquires its frame by evicting a dirty frame `f` mapped to page `p`
(the free list being empty), the completed call has issued
`disk_manager.write_page(p, frames[f].data)`: the write appears in the
disk write log of the resulting state.  In the source the write happens
inside `FindEmptyFrameid` strictly before the old mapping is removed and
the frame is reused; the whole call is atomic under the pool latch, so
the observable guarantee is that a dirty page's bytes are never discarded
by eviction. -/
theorem c4_dirty_eviction_writes_back
    (s : BufferPoolManagerInstance) (f : Nat) (p : Int)
    (hfree : s.freeList = [])
    (hev : (s.replacer.Evict).map (fun x => x.1) = some f)
    (hdirty : (s.pages f).is_dirty = true)
    (hpid : (s.pages f).page_id = p) :
    (∀ res s2, s.NewPgImp = some (res, s2) →
      (p, (s.pages f).data) ∈ s2.writeLog) ∧
    (∀ q res s2, ExtendibleHashTable.Find stdHashInt s.pageTable q = none →
      s.FetchPgImp q = some (res, s2) →
      (p, (s.pages f).data) ∈ s2.writeLog) := by
  rcases he : s.replacer.Evict with - | x
  · rw [he] at hev
    exact absurd hev (by simp)
  rcases x with ⟨f2, rep⟩
  rw [he] at hev
  simp only [Option.map_some', Option.some.injEq] at hev
  rw [hev] at he
  have hsz : s.replacer.Size ≠ 0 := LRUKReplacer.Evict_currSize_ne_zero he
  have hfe : ∃ s1, s.FindEmptyFrameid = some (f, s1) ∧
      s1.writeLog = s.writeLog ++ [(p, (s.pages f).data)] := by
    simp only [BufferPoolManagerInstance.FindEmptyFrameid, hfree, he]
    refine ⟨_, rfl, ?_⟩
    simp [BufferPoolManagerInstance.setPage, BufferPoolManagerInstance.writePage,
      hdirty, hpid]
  obtain ⟨s1, hfe1, hlog⟩ := hfe
  constructor
  · intro res s2 h
    simp only [BufferPoolManagerInstance.NewPgImp, hsz, and_false, if_false, hfe1] at h
    rcases hse : s1.replacer.SetEvictable f false with - | rep1
    · simp only [BufferPoolManagerInstance.setPage, hse] at h
      exact Option.noConfusion h
    · simp only [BufferPoolManagerInstance.setPage, hse] at h
      rcases hra : rep1.RecordAccess f with - | rep2
      · simp only [hra] at h
        exact Option.noConfusion h
      · simp only [hra, Option.some.injEq, Prod.mk.injEq] at h
        obtain ⟨-, h2⟩ := h
        rw [← h2]
        simp [hlog]
  · intro q res s2 hmiss h
    simp only [BufferPoolManagerInstance.FetchPgImp, hsz, and_false, if_false,
      hmiss, hfe1] at h
    rcases hse : s1.replacer.SetEvictable f false with - | rep1
    · simp only [BufferPoolManagerInstance.setPage, hse] at h
      exact Option.noConfusion h
    · simp only [BufferPoolManagerInstance.setPage, hse] at h
      rcases hra : rep1.RecordAccess f with - | rep2
      · simp only [hra] at h
        exact Option.noConfusion h
      · simp only [hra, Option.some.injEq, Prod.mk.injEq] at h
        obtain ⟨-, h2⟩ := h
        rw [← h2]
        simp [hlog]

/-- Witness for C4: pool of size 1; `new_page`, `unpin(0, true)` leaves
frame 0 dirty, evictable, free list empty; a further `new_page` logs the
write-back of page 0. -/
theorem c4_dirty_eviction_writes_back_witness :
    ((Option.getD
        (runPool [PoolOp.newPage, PoolOp.unpinPage 0 true]
          (BufferPoolManagerInstance.new 1 4 2))
        (BufferPoolManagerInstance.new 1 4 2)).NewPgImp).map
      (fun x => decide ((0, 0) ∈ x.2.writeLog)) = some true := by
  have h := (c4_dirty_eviction_writes_back
    (Option.getD
      (runPool [PoolOp.newPage, PoolOp.unpinPage 0 true]
        (BufferPoolManagerInstance.new 1 4 2))
      (BufferPoolManagerInstance.new 1 4 2))
    0 0 (by decide) (by decide) (by decide) (by decide)).1
  rcases hn : (Option.getD
      (runPool [PoolOp.newPage, PoolOp.unpinPage 0 true]
        (BufferPoolManagerInstance.new 1 4 2))
      (BufferPoolManagerInstance.new 1 4 2)).NewPgImp with - | x
  · have hs : ((Option.getD
        (runPool [PoolOp.newPage, PoolOp.unpinPage 0 true]
          (BufferPoolManagerInstance.new 1 4 2))
        (BufferPoolManagerInstance.new 1 4 2)).NewPgImp).isSome = true := by decide
    rw [hn] at hs
    exact Bool.noConfusion hs
  · have hm := h x.1 x.2 (by rw [hn])
    have hd : ((Option.getD
        (runPool [PoolOp.newPage, PoolOp.unpinPage 0 true]
          (BufferPoolManagerInstance.new 1 4 2))
        (BufferPoolManagerInstance.new 1 4 2)).pages 0).data = 0 := by decide
    rw [hd] at hm
    simp only [Option.map_some']
    refine congrArg some ?_
    rw [decide_eq_true_eq]
    exact hm

section ReplacerLemmas

/-- Flipping one point of a boolean predicate shifts the filter count by
the difference of the old and new values. -/
theorem card_filter_update (p : Nat → Bool) (n a : Nat) (b : Bool)
    (ha : a ∈ Finset.range (n + 1)) :
    ((Finset.range (n + 1)).filter (fun x => (if x = a then b else p x) = true)).card
      + (if p a = true then 1 else 0)
    = ((Finset.range (n + 1)).filter (fun x => p x = true)).card
      + (if b = true then 1 else 0) := by
  have h1 : ∀ (q : Nat → Bool),
      ((Finset.range (n + 1)).filter (fun x => q x = true)).card
        = (if q a = true then 1 else 0)
          + ∑ x ∈ (Finset.range (n + 1)).erase a, (if q x = true then 1 else 0) := by
    intro q
    rw [Finset.card_filter, ← Finset.add_sum_erase _ _ ha]
  rw [h1, h1]
  have h2 : ∑ x ∈ (Finset.range (n + 1)).erase a,
      (if (if x = a then b else p x) = true then 1 else 0)
      = ∑ x ∈ (Finset.range (n + 1)).erase a, (if p x = true then 1 else 0) := by
    apply Finset.sum_congr rfl
    intro x hx
    rw [if_neg (Finset.ne_of_mem_erase hx)]
  rw [h2, if_pos rfl]
  omega

/-- A pointwise-equal update leaves the filter count unchanged. -/
theorem card_filter_congr (p q : Nat → Bool) (n : Nat)
    (hpq : ∀ x, p x = q x) :
    ((Finset.range (n + 1)).filter (fun x => p x = true)).card
      = ((Finset.range (n + 1)).filter (fun x => q x = true)).card := by
  congr 1
  apply Finset.filter_congr
  intro x _
  rw [hpq]

/-- A successful `find?` splits the list around the found element, the
prefix containing no match. -/
theorem find?_split {l : List Nat} {p : Nat → Bool} {g : Nat}
    (h : l.find? p = some g) :
    ∃ s t, l = s ++ g :: t ∧ ∀ x ∈ s, p x = false := by
  induction l with
  | nil => exact absurd h (by simp)
  | cons a l ih =>
    by_cases hp : p a = true
    · rw [List.find?_cons_of_pos _ hp] at h
      obtain rfl : a = g := by simpa using h
      exact ⟨[], l, rfl, by simp⟩
    · rw [List.find?_cons_of_neg _ (by simpa using hp)] at h
      obtain ⟨s, t, rfl, hs⟩ := ih h
      refine ⟨a :: s, t, rfl, ?_⟩
      intro x hx
      rcases List.mem_cons.1 hx with rfl | hx
      · simpa using hp
      · exact hs x hx

/-- A successful `find?` on the reversed list splits the original list
around the found element, the suffix containing no match. -/
theorem reverse_find?_split {l : List Nat} {p : Nat → Bool} {g : Nat}
    (h : l.reverse.find? p = some g) :
    ∃ s t, l = s ++ g :: t ∧ ∀ x ∈ t, p x = false := by
  obtain ⟨s, t, hsplit, hs⟩ := find?_split h
  refine ⟨t.reverse, s.reverse, ?_, ?_⟩
  · have := congrArg List.reverse hsplit
    simpa using this
  · intro x hx
    exact hs x (by simpa using hx)

/-- A list member satisfying the predicate makes `find?` succeed. -/
theorem find?_isSome_of_mem {l : List Nat} {p : Nat → Bool} {x : Nat}
    (hx : x ∈ l) (hp : p x = true) : ∃ g, l.find? p = some g := by
  rcases hf : l.find? p with - | g
  · rw [List.find?_eq_none] at hf
    exact absurd hp (by simpa using hf x hx)
  · exact ⟨g, rfl⟩

end ReplacerLemmas

section RinvPreservation

/-- The fresh replacer satisfies the representation invariant. -/
theorem Rinv_new (n k : Nat) : Rinv (LRUKReplacer.new n k) := by
  refine ⟨by simp [LRUKReplacer.new], by simp [LRUKReplacer.new],
    List.nodup_nil, List.nodup_nil, by simp [LRUKReplacer.new],
    by simp [LRUKReplacer.new], ?_⟩
  simp [LRUKReplacer.new]

/-- `SetEvictable` preserves the representation invariant. -/
theorem Rinv_SetEvictable {r r2 : LRUKReplacer} {f : Nat} {flag : Bool}
    (h : Rinv r) (hop : r.SetEvictable f flag = some r2) : Rinv r2 := by
  obtain ⟨hh, hc, hnh, hnc, hcb, heb, hcs⟩ := h
  simp only [LRUKReplacer.SetEvictable] at hop
  by_cases hb : f > r.replacerSize
  · rw [if_pos hb] at hop
    exact Option.noConfusion hop
  rw [if_neg hb] at hop
  have hble : f ≤ r.replacerSize := Nat.le_of_not_lt hb
  obtain rfl : _ = r2 := Option.some.inj hop
  have hmem : f ∈ Finset.range (r.replacerSize + 1) := by
    simp [Nat.lt_succ_of_le hble]
  refine ⟨hh, hc, hnh, hnc, hcb, ?_, ?_⟩
  · intro x hx
    by_cases hxf : x = f
    · subst hxf
      exact hble
    · refine heb x ?_
      simpa [hxf] using hx
  · show (if ¬r.isEvictable f = true ∧ flag = true then r.currSize + 1
        else if r.isEvictable f = true ∧ ¬flag = true then r.currSize - 1
        else r.currSize)
      = ((Finset.range (r.replacerSize + 1)).filter
          (fun x => (if x = f then flag else r.isEvictable x) = true)).card
    have hupd := card_filter_update r.isEvictable r.replacerSize f flag hmem
    rcases Bool.eq_false_or_eq_true flag with hf | hf <;>
      rcases Bool.eq_false_or_eq_true (r.isEvictable f) with he | he <;>
      rw [hf, he] at hupd ⊢ <;>
      simp at hupd hcs ⊢ <;>
      omega

/-- `RecordAccess` preserves the representation invariant. -/
theorem Rinv_RecordAccess {r r2 : LRUKReplacer} {f : Nat}
    (h : Rinv r) (hop : r.RecordAccess f = some r2) : Rinv r2 := by
  obtain ⟨hh, hc, hnh, hnc, hcb, heb, hcs⟩ := h
  simp only [LRUKReplacer.RecordAccess] at hop
  by_cases hb : f > r.replacerSize
  · rw [if_pos hb] at hop
    exact Option.noConfusion hop
  rw [if_neg hb] at hop
  have hble : f ≤ r.replacerSize := Nat.le_of_not_lt hb
  by_cases h1 : r.accessCount f + 1 = r.k
  · rw [if_pos h1] at hop
    obtain rfl : _ = r2 := Option.some.inj hop
    have hk0 : 0 < r.k := by omega
    refine ⟨?_, ?_, hnh.erase f, ?_, ?_, heb, hcs⟩
    · intro x
      rcases eq_or_ne x f with rfl | hxf
      · simp [List.Nodup.mem_erase_iff hnh, h1]
      · simp only [LRUKReplacer.historyList, LRUKReplacer.accessCount,
          LRUKReplacer.k]
        simp [List.Nodup.mem_erase_iff hnh, hxf, hh x]
    · intro x
      rcases eq_or_ne x f with rfl | hxf
      · simp [h1, hk0]
      · simp [hxf, hc x]
    · rw [List.nodup_cons]
      refine ⟨?_, hnc⟩
      intro hf
      have := (hc f).1 hf
      omega
    · intro x hx
      rcases eq_or_ne x f with rfl | hxf
      · exact hble
      · simp [hxf] at hx
        exact hcb x hx
  · rw [if_neg h1] at hop
    by_cases h2 : r.accessCount f + 1 > r.k
    · rw [if_pos h2] at hop
      obtain rfl : _ = r2 := Option.some.inj hop
      have hkc : r.k ≤ r.accessCount f + 1 := by omega
      refine ⟨?_, ?_, hnh, ?_, ?_, heb, hcs⟩
      · intro x
        rcases eq_or_ne x f with rfl | hxf
        · simp [hh x]
          constructor
          · intro h4
            omega
          · intro h4
            omega
        · simp [hxf, hh x]
      · intro x
        rcases eq_or_ne x f with rfl | hxf
        · simp [hkc]
        · simp [hxf, List.Nodup.mem_erase_iff hnc, hc x]
      · rw [List.nodup_cons]
        refine ⟨?_, hnc.erase f⟩
        intro hf
        exact ((List.Nodup.mem_erase_iff hnc).1 hf).1 rfl
      · intro x hx
        rcases eq_or_ne x f with rfl | hxf
        · exact hble
        · simp [hxf] at hx
          exact hcb x hx
    · rw [if_neg h2] at hop
      obtain rfl : _ = r2 := Option.some.inj hop
      have h3 : r.accessCount f + 1 < r.k := by omega
      refine ⟨?_, ?_, ?_, hnc, ?_, heb, hcs⟩
      · intro x
        rcases eq_or_ne x f with rfl | hxf
        · simp [h3]
        · simp [hxf, List.Nodup.mem_erase_iff hnh, hh x]
      · intro x
        rcases eq_or_ne x f with rfl | hxf
        · simp [hc x]
          constructor
          · intro h4
            omega
          · intro h4
            omega
        · simp [hxf, hc x]
      · rw [List.nodup_cons]
        refine ⟨?_, hnh.erase f⟩
        intro hf
        exact ((List.Nodup.mem_erase_iff hnh).1 hf).1 rfl
      · intro x hx
        rcases eq_or_ne x f with rfl | hxf
        · exact hble
        · simp [hxf] at hx
          exact hcb x hx

/-- `Evict` preserves the representation invariant. -/
theorem Rinv_Evict {r : LRUKReplacer} {g : Nat} {r2 : LRUKReplacer}
    (h : Rinv r) (hop : r.Evict = some (g, r2)) : Rinv r2 := by
  obtain ⟨hh, hc, hnh, hnc, hcb, heb, hcs⟩ := h
  simp only [LRUKReplacer.Evict] at hop
  by_cases hz : r.currSize = 0
  · rw [if_pos hz] at hop
    exact Option.noConfusion hop
  rw [if_neg hz] at hop
  rcases hfh : r.historyList.reverse.find? (fun f => r.isEvictable f) with - | g1
  · simp only [hfh] at hop
    rcases hfc : r.cacheList.reverse.find? (fun f => r.isEvictable f) with - | g1
    · simp only [hfc] at hop
      exact Option.noConfusion hop
    · simp only [hfc, Option.some.injEq, Prod.mk.injEq] at hop
      obtain ⟨rfl, rfl⟩ := hop
      have hev : r.isEvictable g1 = true := List.find?_some hfc
      have hmem : g1 ∈ r.cacheList :=
        List.mem_reverse.1 (List.mem_of_find?_eq_some hfc)
      obtain ⟨hpos, hge⟩ := (hc g1).1 hmem
      have hble : g1 ≤ r.replacerSize := heb g1 hev
      have hrange : g1 ∈ Finset.range (r.replacerSize + 1) := by
        simp [Nat.lt_succ_of_le hble]
      refine ⟨?_, ?_, hnh, hnc.erase g1, ?_, ?_, ?_⟩
      · intro x
        rcases eq_or_ne x g1 with rfl | hxf
        · simp [hh x]
          omega
        · simp [hxf, hh x]
      · intro x
        rcases eq_or_ne x g1 with rfl | hxf
        · simp [List.Nodup.mem_erase_iff hnc]
        · simp [hxf, List.Nodup.mem_erase_iff hnc, hc x]
      · intro x hx
        rcases eq_or_ne x g1 with rfl | hxf
        · simp at hx
        · simp [hxf] at hx
          exact hcb x hx
      · intro x hx
        rcases eq_or_ne x g1 with rfl | hxf
        · simp at hx
        · simp [hxf] at hx
          exact heb x hx
      · show r.currSize - 1 = ((Finset.range (r.replacerSize + 1)).filter
          (fun x => (if x = g1 then false else r.isEvictable x) = true)).card
        have hupd := card_filter_update r.isEvictable r.replacerSize g1 false hrange
        rw [hev] at hupd
        rw [show (if (true : Bool) = true then 1 else 0) = 1 from by simp,
            show (if (false : Bool) = true then 1 else 0) = 0 from by simp] at hupd
        omega
  · simp only [hfh, Option.some.injEq, Prod.mk.injEq] at hop
    obtain ⟨rfl, rfl⟩ := hop
    have hev : r.isEvictable g1 = true := List.find?_some hfh
    have hmem : g1 ∈ r.historyList :=
      List.mem_reverse.1 (List.mem_of_find?_eq_some hfh)
    obtain ⟨hpos, hlt⟩ := (hh g1).1 hmem
    have hble : g1 ≤ r.replacerSize := heb g1 hev
    have hrange : g1 ∈ Finset.range (r.replacerSize + 1) := by
      simp [Nat.lt_succ_of_le hble]
    refine ⟨?_, ?_, hnh.erase g1, hnc, ?_, ?_, ?_⟩
    · intro x
      rcases eq_or_ne x g1 with rfl | hxf
      · simp [List.Nodup.mem_erase_iff hnh]
      · simp [hxf, List.Nodup.mem_erase_iff hnh, hh x]
    · intro x
      rcases eq_or_ne x g1 with rfl | hxf
      · simp [hc x]
        omega
      · simp [hxf, hc x]
    · intro x hx
      rcases eq_or_ne x g1 with rfl | hxf
      · simp at hx
      · simp [hxf] at hx
        exact hcb x hx
    · intro x hx
      rcases eq_or_ne x g1 with rfl | hxf
      · simp at hx
      · simp [hxf] at hx
        exact heb x hx
    · show r.currSize - 1 = ((Finset.range (r.replacerSize + 1)).filter
        (fun x => (if x = g1 then false else r.isEvictable x) = true)).card
      have hupd := card_filter_update r.isEvictable r.replacerSize g1 false hrange
      rw [hev] at hupd
      rw [show (if (true : Bool) = true then 1 else 0) = 1 from by simp,
          show (if (false : Bool) = true then 1 else 0) = 0 from by simp] at hupd
      omega

/-- `Remove` preserves the representation invariant. -/
theorem Rinv_Remove {r r2 : LRUKReplacer} {f : Nat}
    (h : Rinv r) (hop : r.Remove f = some r2) : Rinv r2 := by
  obtain ⟨hh, hc, hnh, hnc, hcb, heb, hcs⟩ := h
  simp only [LRUKReplacer.Remove] at hop
  by_cases hb : f > r.replacerSize
  · rw [if_pos hb] at hop
    exact Option.noConfusion hop
  rw [if_neg hb] at hop
  by_cases hz : r.accessCount f = 0
  · rw [if_pos hz] at hop
    obtain rfl : _ = r2 := Option.some.inj hop
    exact ⟨hh, hc, hnh, hnc, hcb, heb, hcs⟩
  rw [if_neg hz] at hop
  by_cases hev : ¬ r.isEvictable f = true
  · rw [if_pos hev] at hop
    exact Option.noConfusion hop
  rw [if_neg hev] at hop
  simp only [Bool.not_eq_true, not_not] at hev
  replace hev : r.isEvictable f = true := by
    rcases Bool.eq_false_or_eq_true (r.isEvictable f) with h' | h'
    · exact h'
    · exact absurd h' (by simp [hev])
  have hble : f ≤ r.replacerSize := heb f hev
  have hrange : f ∈ Finset.range (r.replacerSize + 1) := by
    simp [Nat.lt_succ_of_le hble]
  by_cases hk : r.accessCount f ≥ r.k
  · rw [if_pos hk] at hop
    obtain rfl : _ = r2 := Option.some.inj hop
    refine ⟨?_, ?_, hnh, hnc.erase f, ?_, ?_, ?_⟩
    · intro x
      rcases eq_or_ne x f with rfl | hxf
      · simp [hh x]
        omega
      · simp [hxf, hh x]
    · intro x
      rcases eq_or_ne x f with rfl | hxf
      · simp [List.Nodup.mem_erase_iff hnc]
      · simp [hxf, List.Nodup.mem_erase_iff hnc, hc x]
    · intro x hx
      rcases eq_or_ne x f with rfl | hxf
      · simp at hx
      · simp [hxf] at hx
        exact hcb x hx
    · intro x hx
      rcases eq_or_ne x f with rfl | hxf
      · simp at hx
      · simp [hxf] at hx
        exact heb x hx
    · show r.currSize - 1 = ((Finset.range (r.replacerSize + 1)).filter
        (fun x => (if x = f then false else r.isEvictable x) = true)).card
      have hupd := card_filter_update r.isEvictable r.replacerSize f false hrange
      rw [hev] at hupd
      rw [show (if (true : Bool) = true then 1 else 0) = 1 from by simp,
          show (if (false : Bool) = true then 1 else 0) = 0 from by simp] at hupd
      omega
  · rw [if_neg hk] at hop
    obtain rfl : _ = r2 := Option.some.inj hop
    refine ⟨?_, ?_, hnh.erase f, hnc, ?_, ?_, ?_⟩
    · intro x
      rcases eq_or_ne x f with rfl | hxf
      · simp [List.Nodup.mem_erase_iff hnh]
      · simp [hxf, List.Nodup.mem_erase_iff hnh, hh x]
    · intro x
      rcases eq_or_ne x f with rfl | hxf
      · simp [hc x]
        omega
      · simp [hxf, hc x]
    · intro x hx
      rcases eq_or_ne x f with rfl | hxf
      · simp at hx
      · simp [hxf] at hx
        exact hcb x hx
    · intro x hx
      rcases eq_or_ne x f with rfl | hxf
      · simp at hx
      · simp [hxf] at hx
        exact heb x hx
    · show r.currSize - 1 = ((Finset.range (r.replacerSize + 1)).filter
        (fun x => (if x = f then false else r.isEvictable x) = true)).card
      have hupd := card_filter_update r.isEvictable r.replacerSize f false hrange
      rw [hev] at hupd
      rw [show (if (true : Bool) = true then 1 else 0) = 1 from by simp,
          show (if (false : Bool) = true then 1 else 0) = 0 from by simp] at hupd
      omega

/-- One replacer call preserves the representation invariant. -/
theorem Rinv_rstep {r r2 : LRUKReplacer} {op : ROp}
    (h : Rinv r) (hop : rstep r op = some r2) : Rinv r2 := by
  cases op with
  | record f => exact Rinv_RecordAccess h hop
  | setEvictable f b => exact Rinv_SetEvictable h hop
  | evict =>
    simp only [rstep] at hop
    rcases he : r.Evict with - | x
    · rw [he] at hop
      obtain rfl : r = r2 := Option.some.inj hop
      exact h
    · rw [he] at hop
      obtain rfl : x.2 = r2 := Option.some.inj hop
      exact Rinv_Evict h (by rw [he])
  | remove f => exact Rinv_Remove h hop

/-- A run from `none` stays `none`. -/
theorem runR_from_none (ops : List ROp) :
    ops.foldl (fun acc op => acc.bind (fun s => rstep s op)) none = none := by
  induction ops with
  | nil => rfl
  | cons op ops ih => simpa [List.foldl_cons] using ih

/-- Any reachable replacer state satisfies the representation invariant. -/
theorem Rinv_runR (ops : List ROp) (r : LRUKReplacer) (h : Rinv r)
    {r2 : LRUKReplacer} (hrun : runR ops r = some r2) : Rinv r2 := by
  induction ops generalizing r with
  | nil => exact Option.some.inj hrun ▸ h
  | cons op ops ih =>
    rw [runR, List.foldl_cons] at hrun
    rcases hstep : rstep r op with - | r3
    · rw [Option.bind] at hrun
      simp only [hstep] at hrun
      rw [runR_from_none ops] at hrun
      exact Option.noConfusion hrun
    · rw [Option.bind] at hrun
      simp only [hstep] at hrun
      exact ih r3 (Rinv_rstep h hstep) hrun

end RinvPreservation

/-- **C5**: in every reachable replacer state in which some evictable
frame has `0 < access_count < k` (the low-frequency, history class),
`Evict` succeeds and returns a frame of that class — never a frame with
`access_count ≥ k` — and specifically the history-list entry closest to
the tail with no evictable frame behind it; since `RecordAccess` pushes a
frame to the front of its list on every access, the tail side is the
least-recently-accessed side, so this is the frame of the class whose
most recent recorded access is oldest. -/
theorem c5_evict_prefers_history (n k : Nat) (ops : List ROp)
    (r : LRUKReplacer) (f : Nat)
    (hrun : runR ops (LRUKReplacer.new n k) = some r)
    (hev : r.isEvictable f = true)
    (hpos : 0 < r.accessCount f) (hlt : r.accessCount f < r.k) :
    ∃ g r2 pre post,
      r.Evict = some (g, r2) ∧
      0 < r.accessCount g ∧ r.accessCount g < r.k ∧
      r.isEvictable g = true ∧
      r.historyList = pre ++ g :: post ∧
      (∀ x ∈ post, r.isEvictable x = false) := by
  obtain ⟨hh, hc, hnh, hnc, hcb, heb, hcs⟩ := Rinv_runR ops _ (Rinv_new n k) hrun
  have hfh : f ∈ r.historyList := (hh f).2 ⟨hpos, hlt⟩
  have hble : f ≤ r.replacerSize := heb f hev
  have hcz : ¬ r.currSize = 0 := by
    have hmemr : f ∈ (Finset.range (r.replacerSize + 1)).filter
        (fun x => r.isEvictable x = true) := by
      simp [Nat.lt_succ_of_le hble, hev]
    have := Finset.card_pos.2 ⟨f, hmemr⟩
    omega
  obtain ⟨g, hg⟩ := find?_isSome_of_mem (List.mem_reverse.2 hfh) hev
  have hevg : r.isEvictable g = true := List.find?_some hg
  have hmemg : g ∈ r.historyList := List.mem_reverse.1 (List.mem_of_find?_eq_some hg)
  obtain ⟨hposg, hltg⟩ := (hh g).1 hmemg
  obtain ⟨pre, post, hsplit, hclean⟩ := reverse_find?_split hg
  have hEv : r.Evict = some (g,
      { r with
        accessCount := fun x => if x = g then 0 else r.accessCount x
        isEvictable := fun x => if x = g then false else r.isEvictable x
        historyList := r.historyList.erase g
        currSize := r.currSize - 1 }) := by
    simp only [LRUKReplacer.Evict]
    rw [if_neg hcz, hg]
  exact ⟨g, _, pre, post, hEv, hposg, hltg, hevg, hsplit,
    fun x hx => by simpa using hclean x hx⟩

/-- Witness for C5: size 3, k = 2; record one access each on frames 1 and
2 and mark both evictable; the history list is `[2, 1]` and `Evict`
succeeds (returning the tail frame 1). -/
theorem c5_evict_prefers_history_witness :
    ((Option.getD
        (runR [ROp.record 1, ROp.record 2, ROp.setEvictable 1 true,
               ROp.setEvictable 2 true] (LRUKReplacer.new 3 2))
        (LRUKReplacer.new 3 2)).Evict).isSome = true := by
  obtain ⟨g, r2, pre, post, hEv, -, -, -, -, -⟩ :=
    c5_evict_prefers_history 3 2
      [ROp.record 1, ROp.record 2, ROp.setEvictable 1 true, ROp.setEvictable 2 true]
      (Option.getD
        (runR [ROp.record 1, ROp.record 2, ROp.setEvictable 1 true,
               ROp.setEvictable 2 true] (LRUKReplacer.new 3 2))
        (LRUKReplacer.new 3 2))
      1 rfl (by decide) (by decide) (by decide)
  rw [hEv]
  rfl

/-- **C10**: in every reachable replacer state containing a frame `f`
with `is_evictable[f]` but `access_count[f] = 0` (as produced by
`set_evictable(f, true)` without a prior `record_access`), `size()` is
positive, yet `f` sits in neither the history list nor the cache list, so
`evict` can never return `f` — and when every listed frame is
non-evictable, `evict` fails outright even though `size() > 0`. -/
theorem c10_positive_size_evict_can_fail (n k : Nat) (ops : List ROp)
    (r : LRUKReplacer) (f : Nat)
    (hrun : runR ops (LRUKReplacer.new n k) = some r)
    (hev : r.isEvictable f = true)
    (hz : r.accessCount f = 0) :
    0 < r.Size ∧ f ∉ r.historyList ∧ f ∉ r.cacheList ∧
      (∀ g r2, r.Evict = some (g, r2) → g ≠ f) ∧
      ((∀ x ∈ r.historyList, r.isEvictable x = false) →
       (∀ x ∈ r.cacheList, r.isEvictable x = false) →
       r.Evict = none) := by
  obtain ⟨hh, hc, hnh, hnc, hcb, heb, hcs⟩ := Rinv_runR ops _ (Rinv_new n k) hrun
  have hble : f ≤ r.replacerSize := heb f hev
  have hsz : 0 < r.currSize := by
    have hmemr : f ∈ (Finset.range (r.replacerSize + 1)).filter
        (fun x => r.isEvictable x = true) := by
      simp [Nat.lt_succ_of_le hble, hev]
    have := Finset.card_pos.2 ⟨f, hmemr⟩
    omega
  refine ⟨hsz, ?_, ?_, ?_, ?_⟩
  · intro hm
    have := (hh f).1 hm
    omega
  · intro hm
    have := (hc f).1 hm
    omega
  · intro g r2 hEv
    simp only [LRUKReplacer.Evict, if_neg (by omega : ¬ r.currSize = 0)] at hEv
    rcases hfh : r.historyList.reverse.find? (fun x => r.isEvictable x) with - | g1
    · simp only [hfh] at hEv
      rcases hfc : r.cacheList.reverse.find? (fun x => r.isEvictable x) with - | g2
      · simp only [hfc] at hEv
        exact Option.noConfusion hEv
      · simp only [hfc, Option.some.injEq, Prod.mk.injEq] at hEv
        obtain ⟨rfl, -⟩ := hEv
        have hm : g2 ∈ r.cacheList := List.mem_reverse.1 (List.mem_of_find?_eq_some hfc)
        have := (hc g2).1 hm
        intro hgf
        subst hgf
        omega
    · simp only [hfh, Option.some.injEq, Prod.mk.injEq] at hEv
      obtain ⟨rfl, -⟩ := hEv
      have hm : g1 ∈ r.historyList := List.mem_reverse.1 (List.mem_of_find?_eq_some hfh)
      have := (hh g1).1 hm
      intro hgf
      subst hgf
      omega
  · intro h1 h2
    have hfh : r.historyList.reverse.find? (fun x => r.isEvictable x) = none := by
      rw [List.find?_eq_none]
      intro x hx
      simp [h1 x (List.mem_reverse.1 hx)]
    have hfc : r.cacheList.reverse.find? (fun x => r.isEvictable x) = none := by
      rw [List.find?_eq_none]
      intro x hx
      simp [h2 x (List.mem_reverse.1 hx)]
    simp only [LRUKReplacer.Evict, if_neg (by omega : ¬ r.currSize = 0), hfh, hfc]

/-- Witness for C10: size 3, k = 2, a single `set_evictable(0, true)`
with no recorded access: the size is positive yet `Evict` fails. -/
theorem c10_positive_size_evict_can_fail_witness :
    0 < (Option.getD (runR [ROp.setEvictable 0 true] (LRUKReplacer.new 3 2))
          (LRUKReplacer.new 3 2)).Size ∧
    ((Option.getD (runR [ROp.setEvictable 0 true] (LRUKReplacer.new 3 2))
          (LRUKReplacer.new 3 2)).Evict).isNone = true := by
  have h := c10_positive_size_evict_can_fail 3 2 [ROp.setEvictable 0 true]
    (Option.getD (runR [ROp.setEvictable 0 true] (LRUKReplacer.new 3 2))
      (LRUKReplacer.new 3 2))
    0 rfl (by decide) (by decide)
  refine ⟨h.1, ?_⟩
  rw [h.2.2.2.2 (by decide) (by decide)]
  rfl

/-- The depth invariant holds along any insert sequence. -/
theorem DepthInv_runInserts (ps : List (Int × Int)) (t : ExtendibleHashTable Int Int)
    (h : DepthInv t) : DepthInv (runInserts ps t) := by
  induction ps generalizing t with
  | nil => exact h
  | cons p ps ih => exact ih _ (DepthInv_Insert stdHashInt h p.1 p.2)

/-- **C9**: after every sequence of `insert`s on the extendible hash
table (the `<int, int>` instantiation, any bucket size), the local depth
of the bucket referenced by every directory slot `i` is at most the
global depth. -/
theorem c9_local_depth_le_global_depth (bs : Nat) (ps : List (Int × Int)) (i : Nat) :
    (runInserts ps (ExtendibleHashTable.new Int Int bs)).GetLocalDepth i ≤
      (runInserts ps (ExtendibleHashTable.new Int Int bs)).GetGlobalDepth := by
  obtain ⟨hlen, hdep⟩ := DepthInv_runInserts ps (ExtendibleHashTable.new Int Int bs)
    ⟨rfl, by
      intro b hb
      simp only [ExtendibleHashTable.new, List.mem_singleton] at hb
      subst hb
      exact Nat.le.refl⟩
  show ((runInserts ps (ExtendibleHashTable.new Int Int bs)).bucketAt i).depth ≤ _
  rcases getD_mem_or_eq (runInserts ps (ExtendibleHashTable.new Int Int bs)).buckets
    ((runInserts ps (ExtendibleHashTable.new Int Int bs)).dir.getD i 0)
    Bucket.dflt with hm | hm
  · exact hdep _ hm
  · show ((runInserts ps (ExtendibleHashTable.new Int Int bs)).buckets.getD _
      Bucket.dflt).depth ≤ _
    rw [hm]
    exact Nat.zero_le _

section PoolInvariant

/-- A successful `SetEvictable` updates exactly the one flag. -/
theorem SetEvictable_isEvictable {r r2 : LRUKReplacer} {f : Nat} {b : Bool}
    (h : r.SetEvictable f b = some r2) (x : Nat) :
    r2.isEvictable x = if x = f then b else r.isEvictable x := by
  simp only [LRUKReplacer.SetEvictable] at h
  by_cases hf : f > r.replacerSize
  · rw [if_pos hf] at h
    exact absurd h (by simp)
  · rw [if_neg hf] at h
    simp only [Option.some.injEq] at h
    rw [← h]

/-- `RecordAccess` never touches the evictable flags. -/
theorem RecordAccess_isEvictable {r r2 : LRUKReplacer} {f : Nat}
    (h : r.RecordAccess f = some r2) : r2.isEvictable = r.isEvictable := by
  simp only [LRUKReplacer.RecordAccess] at h
  by_cases hf : f > r.replacerSize
  · rw [if_pos hf] at h
    exact absurd h (by simp)
  · rw [if_neg hf] at h
    split_ifs at h <;> (simp only [Option.some.injEq] at h; rw [← h])

/-- A successful `Remove` leaves other frames' evictable flags alone. -/
theorem Remove_isEvictable_ne {r r2 : LRUKReplacer} {f : Nat}
    (h : r.Remove f = some r2) (x : Nat) (hx : ¬ x = f) :
    r2.isEvictable x = r.isEvictable x := by
  simp only [LRUKReplacer.Remove] at h
  split_ifs at h
  · simp only [Option.some.injEq] at h
    rw [← h]
  · simp only [Option.some.injEq] at h
    rw [← h]
    simp [hx]
  · simp only [Option.some.injEq] at h
    rw [← h]
    simp [hx]

/-- The frame returned by a successful `Evict` was evictable. -/
theorem Evict_found_evictable {r : LRUKReplacer} {f : Nat} {r2 : LRUKReplacer}
    (h : r.Evict = some (f, r2)) : r.isEvictable f = true := by
  simp only [LRUKReplacer.Evict] at h
  by_cases hc : r.currSize = 0
  · rw [if_pos hc] at h
    exact absurd h (by simp)
  · rw [if_neg hc] at h
    rcases hh : r.historyList.reverse.find? (fun g => r.isEvictable g) with - | g
    · rw [hh] at h
      rcases hcc : r.cacheList.reverse.find? (fun g => r.isEvictable g) with - | g
      · rw [hcc] at h
        exact absurd h (by simp)
      · rw [hcc] at h
        simp only [Option.some.injEq, Prod.mk.injEq] at h
        rw [← h.1]
        exact List.find?_some hcc
    · rw [hh] at h
      simp only [Option.some.injEq, Prod.mk.injEq] at h
      rw [← h.1]
      exact List.find?_some hh

/-- After a successful `Evict`, an evictable frame was already evictable
and is not the victim. -/
theorem Evict_isEvictable {r : LRUKReplacer} {f : Nat} {r2 : LRUKReplacer}
    (h : r.Evict = some (f, r2)) (x : Nat) :
    r2.isEvictable x = true → (¬ x = f ∧ r.isEvictable x = true) := by
  simp only [LRUKReplacer.Evict] at h
  by_cases hc : r.currSize = 0
  · rw [if_pos hc] at h
    exact absurd h (by simp)
  · rw [if_neg hc] at h
    rcases hh : r.historyList.reverse.find? (fun g => r.isEvictable g) with - | g
    · rw [hh] at h
      rcases hcc : r.cacheList.reverse.find? (fun g => r.isEvictable g) with - | g
      · rw [hcc] at h
        exact absurd h (by simp)
      · rw [hcc] at h
        simp only [Option.some.injEq, Prod.mk.injEq] at h
        obtain ⟨hgf, hr⟩ := h
        subst hgf
        intro hx
        have hx2 : (if x = g then false else r.isEvictable x) = true := by
          rw [← hr] at hx
          exact hx
        by_cases hxf : x = g
        · rw [if_pos hxf] at hx2
          exact absurd hx2 (by simp)
        · rw [if_neg hxf] at hx2
          exact ⟨hxf, hx2⟩
    · rw [hh] at h
      simp only [Option.some.injEq, Prod.mk.injEq] at h
      obtain ⟨hgf, hr⟩ := h
      subst hgf
      intro hx
      have hx2 : (if x = g then false else r.isEvictable x) = true := by
        rw [← hr] at hx
        exact hx
      by_cases hxf : x = g
      · rw [if_pos hxf] at hx2
        exact absurd hx2 (by simp)
      · rw [if_neg hxf] at hx2
        exact ⟨hxf, hx2⟩

/-- Reading the slot just written. -/
theorem setPage_pages_self (s : BufferPoolManagerInstance) (f : Nat) (pg : Page) :
    ((s.setPage f pg).pages f) = pg := by
  simp [BufferPoolManagerInstance.setPage]

/-- Reading any other slot. -/
theorem setPage_pages_ne (s : BufferPoolManagerInstance) {x f : Nat} (hx : ¬ x = f)
    (pg : Page) : ((s.setPage f pg).pages x) = s.pages x := by
  simp [BufferPoolManagerInstance.setPage, hx]

/-- What a successful `FindEmptyFrameid` guarantees: the page table still
satisfies its invariant, every surviving mapping avoids the acquired frame
and existed before, pin counts are untouched, other frames keep their page
ids, no frame becomes evictable, and the free list either lost exactly its
head (the acquired frame) or was and stays empty. -/
theorem FindEmptyFrameid_spec {s : BufferPoolManagerInstance} (h : PInv s)
    {f : Nat} {s1 : BufferPoolManagerInstance}
    (hres : s.FindEmptyFrameid = some (f, s1)) :
    EInv stdHashInt s1.pageTable ∧
    (∀ kv, ReachPair s1.pageTable kv → ReachPair s.pageTable kv ∧ ¬ kv.2 = f) ∧
    (∀ x, (s1.pages x).pin_count = (s.pages x).pin_count) ∧
    (∀ x, ¬ x = f → (s1.pages x).page_id = (s.pages x).page_id) ∧
    (∀ x, s1.replacer.isEvictable x = true → s.replacer.isEvictable x = true) ∧
    (s.freeList = f :: s1.freeList ∨ (s.freeList = [] ∧ s1.freeList = [])) := by
  rcases hfl : s.freeList with - | ⟨g, rest⟩
  · rcases hev : s.replacer.Evict with - | ⟨g, rep⟩
    · simp only [BufferPoolManagerInstance.FindEmptyFrameid, hfl, hev] at hres
      exact absurd hres (by simp)
    · simp only [BufferPoolManagerInstance.FindEmptyFrameid, hfl, hev,
        Option.some.injEq, Prod.mk.injEq] at hres
      obtain ⟨hgf, hbody⟩ := hres
      subst hgf
      split_ifs at hbody
      · rw [← hbody]
        refine ⟨(h.einv.remove_spec ((s.pages g).page_id)).1, ?_, ?_, ?_,
          fun x hx => (Evict_isEvictable hev x hx).2, Or.inr ⟨rfl, rfl⟩⟩
        · intro kv hkv
          have hkv2 : ReachPair
              (ExtendibleHashTable.Remove stdHashInt s.pageTable (s.pages g).page_id).2 kv :=
            hkv
          obtain ⟨hold, hne⟩ := (h.einv.remove_spec ((s.pages g).page_id)).2 kv hkv2
          refine ⟨hold, ?_⟩
          intro hc
          apply hne
          rw [← h.pageOf kv hold, hc]
        · intro x
          by_cases hx : x = g
          · subst hx
            rw [setPage_pages_self]
            rfl
          · rw [setPage_pages_ne _ hx]
            rfl
        · intro x hx
          rw [setPage_pages_ne _ hx]
          rfl
      · rw [← hbody]
        refine ⟨(h.einv.remove_spec ((s.pages g).page_id)).1, ?_, ?_, ?_,
          fun x hx => (Evict_isEvictable hev x hx).2, Or.inr ⟨rfl, rfl⟩⟩
        · intro kv hkv
          have hkv2 : ReachPair
              (ExtendibleHashTable.Remove stdHashInt s.pageTable (s.pages g).page_id).2 kv :=
            hkv
          obtain ⟨hold, hne⟩ := (h.einv.remove_spec ((s.pages g).page_id)).2 kv hkv2
          refine ⟨hold, ?_⟩
          intro hc
          apply hne
          rw [← h.pageOf kv hold, hc]
        · intro x
          by_cases hx : x = g
          · subst hx
            rw [setPage_pages_self]
          · rw [setPage_pages_ne _ hx]
        · intro x hx
          rw [setPage_pages_ne _ hx]
  · simp only [BufferPoolManagerInstance.FindEmptyFrameid, hfl,
      Option.some.injEq, Prod.mk.injEq] at hres
    obtain ⟨hgf, hbody⟩ := hres
    subst hgf
    rw [← hbody]
    have hginfree : g ∈ s.freeList := by
      rw [hfl]
      exact List.mem_cons_self g rest
    refine ⟨h.einv, ?_, fun x => rfl, fun x hx => rfl, fun x hx => hx, Or.inl rfl⟩
    intro kv hkv
    have hkv2 : ReachPair s.pageTable kv := hkv
    exact ⟨hkv2, fun hc => h.freeNoRef g hginfree kv hkv2 (hc ▸ rfl)⟩

/-- Installing a fresh page `pid` in a frame acquired from
`FindEmptyFrameid` (the common tail of `NewPgImp` and the miss path of
`FetchPgImp`) preserves the pool invariant. -/
theorem PInv_installFrame {s s1 : BufferPoolManagerInstance} (h : PInv s)
    {f : Nat} (hfe : s.FindEmptyFrameid = some (f, s1))
    (pid : Int) (dat : Nat) (next : Int)
    {rep1 rep2 : LRUKReplacer}
    (hse : s1.replacer.SetEvictable f false = some rep1)
    (hra : rep1.RecordAccess f = some rep2) :
    PInv { s1 with
      nextPageId := next
      pageTable := ExtendibleHashTable.Insert stdHashInt s1.pageTable pid f
      pages := fun x => if x = f then ⟨pid, 1, false, dat⟩ else s1.pages x
      replacer := rep2 } := by
  obtain ⟨heinv1, hreach1, hpin1, hpid1, hev1, hfree1⟩ := FindEmptyFrameid_spec h hfe
  have hffree1 : f ∉ s1.freeList := by
    rcases hfree1 with hf1 | ⟨hf1, hf2⟩
    · have := h.freeNodup
      rw [hf1, List.nodup_cons] at this
      exact this.1
    · rw [hf2]
      exact List.not_mem_nil f
  have hsub1 : ∀ g ∈ s1.freeList, g ∈ s.freeList := by
    intro g hg
    rcases hfree1 with hf1 | ⟨hf1, hf2⟩
    · rw [hf1]
      exact List.mem_cons_of_mem f hg
    · rw [hf2] at hg
      exact absurd hg (List.not_mem_nil g)
  obtain ⟨heinv2, hreach2⟩ := heinv1.Insert_spec pid f
  refine ⟨heinv2, ?_, ?_, ?_, ?_, ?_⟩
  · -- no pinned frame evictable
    intro x hx
    show rep2.isEvictable x = false
    rw [congrFun (RecordAccess_isEvictable hra) x, SetEvictable_isEvictable hse x]
    by_cases hxf : x = f
    · rw [if_pos hxf]
    · rw [if_neg hxf]
      have hx2 : 0 < ((if x = f then (⟨pid, 1, false, dat⟩ : Page) else s1.pages x)).pin_count :=
        hx
      rw [if_neg hxf] at hx2
      have hx3 : 0 < (s.pages x).pin_count := by
        rw [← hpin1 x]
        exact hx2
      have hx4 := h.pinned x hx3
      cases hsx : s1.replacer.isEvictable x with
      | false => rfl
      | true => rw [hev1 x hsx] at hx4; exact absurd hx4 (by simp)
  · -- free list has no duplicates
    show s1.freeList.Nodup
    rcases hfree1 with hf1 | ⟨hf1, hf2⟩
    · have := h.freeNodup
      rw [hf1, List.nodup_cons] at this
      exact this.2
    · rw [hf2]
      exact List.nodup_nil
  · -- free frames are unpinned
    intro g hg
    have hgne : ¬ g = f := fun hc => hffree1 (hc ▸ hg)
    show ((if g = f then (⟨pid, 1, false, dat⟩ : Page) else s1.pages g)).pin_count = 0
    rw [if_neg hgne, hpin1 g]
    exact h.freePin g (hsub1 g hg)
  · -- free frames are unreferenced
    intro g hg kv hkv
    have hgne : ¬ g = f := fun hc => hffree1 (hc ▸ hg)
    rcases hreach2 kv hkv with hkv2 | hkv2
    · rw [hkv2]
      intro hc
      exact hgne (hc.symm)
    · obtain ⟨hkv3, _⟩ := hreach1 kv hkv2
      exact h.freeNoRef g (hsub1 g hg) kv hkv3
  · -- reachable mappings carry the matching page id
    intro kv hkv
    rcases hreach2 kv hkv with hkv2 | hkv2
    · rw [hkv2]
      show (if f = f then (⟨pid, 1, false, dat⟩ : Page) else s1.pages f).page_id = pid
      rw [if_pos rfl]
    · obtain ⟨hkv3, hkne⟩ := hreach1 kv hkv2
      show ((if kv.2 = f then (⟨pid, 1, false, dat⟩ : Page) else s1.pages kv.2)).page_id = kv.1
      rw [if_neg hkne, hpid1 kv.2 hkne]
      exact h.pageOf kv hkv3

/-- `NewPgImp` preserves the pool invariant. -/
theorem PInv_NewPg {s s2 : BufferPoolManagerInstance} (h : PInv s)
    {res : Option (Int × Nat)} (hres : s.NewPgImp = some (res, s2)) : PInv s2 := by
  simp only [BufferPoolManagerInstance.NewPgImp] at hres
  split_ifs at hres
  · simp only [Option.some.injEq, Prod.mk.injEq] at hres
    rw [← hres.2]
    exact h
  · rcases hfe : s.FindEmptyFrameid with - | ⟨f, s1⟩
    · simp only [hfe, Option.some.injEq, Prod.mk.injEq] at hres
      rw [← hres.2]
      exact h
    · simp only [hfe, BufferPoolManagerInstance.setPage] at hres
      rcases hse : s1.replacer.SetEvictable f false with - | rep1
      · simp only [hse] at hres
        exact absurd hres (by simp)
      · simp only [hse] at hres
        rcases hra : rep1.RecordAccess f with - | rep2
        · simp only [hra] at hres
          exact absurd hres (by simp)
        · simp only [hra, Option.some.injEq, Prod.mk.injEq] at hres
          rw [← hres.2]
          exact PInv_installFrame h hfe s1.nextPageId 0 (s1.nextPageId + 1) hse hra

/-- The index-hit tail of `FetchPgImp` (pin bump, page-id refresh, pin in
the replacer, record the access) preserves the pool invariant. -/
theorem PInv_fetchHit {s : BufferPoolManagerInstance} (h : PInv s) {pid : Int} {f : Nat}
    (hfind : ExtendibleHashTable.Find stdHashInt s.pageTable pid = some f)
    {rep1 rep2 : LRUKReplacer}
    (hse : s.replacer.SetEvictable f false = some rep1)
    (hra : rep1.RecordAccess f = some rep2) :
    PInv { s with
      pages := fun x => if x = f then
          { s.pages f with pin_count := (s.pages f).pin_count + 1, page_id := pid }
        else s.pages x
      replacer := rep2 } := by
  have hrf : ReachPair s.pageTable (pid, f) := h.einv.find_some_reach hfind
  have hpidf : (s.pages f).page_id = pid := h.pageOf (pid, f) hrf
  have hffree : f ∉ s.freeList := fun hf => h.freeNoRef f hf (pid, f) hrf rfl
  refine ⟨h.einv, ?_, h.freeNodup, ?_, h.freeNoRef, ?_⟩
  · intro x hx
    show rep2.isEvictable x = false
    rw [congrFun (RecordAccess_isEvictable hra) x, SetEvictable_isEvictable hse x]
    by_cases hxf : x = f
    · rw [if_pos hxf]
    · rw [if_neg hxf]
      have hx2 : 0 < ((if x = f then
          { s.pages f with pin_count := (s.pages f).pin_count + 1, page_id := pid }
        else s.pages x)).pin_count := hx
      rw [if_neg hxf] at hx2
      exact h.pinned x hx2
  · intro g hg
    have hgne : ¬ g = f := fun hc => hffree (hc ▸ hg)
    show ((if g = f then
        { s.pages f with pin_count := (s.pages f).pin_count + 1, page_id := pid }
      else s.pages g)).pin_count = 0
    rw [if_neg hgne]
    exact h.freePin g hg
  · intro kv hkv
    have hkv2 : ReachPair s.pageTable kv := hkv
    show ((if kv.2 = f then
        { s.pages f with pin_count := (s.pages f).pin_count + 1, page_id := pid }
      else s.pages kv.2)).page_id = kv.1
    by_cases hkf : kv.2 = f
    · rw [if_pos hkf]
      show pid = kv.1
      rw [← h.pageOf kv hkv2, hkf, hpidf]
    · rw [if_neg hkf]
      exact h.pageOf kv hkv2

/-- `FetchPgImp` preserves the pool invariant. -/
theorem PInv_FetchPg {s s2 : BufferPoolManagerInstance} {pid : Int} (h : PInv s)
    {res : Option Nat} (hres : s.FetchPgImp pid = some (res, s2)) : PInv s2 := by
  simp only [BufferPoolManagerInstance.FetchPgImp] at hres
  split_ifs at hres
  · simp only [Option.some.injEq, Prod.mk.injEq] at hres
    rw [← hres.2]
    exact h
  · rcases hfind : ExtendibleHashTable.Find stdHashInt s.pageTable pid with - | f
    · simp only [hfind] at hres
      rcases hfe : s.FindEmptyFrameid with - | ⟨f, s1⟩
      · simp only [hfe, Option.some.injEq, Prod.mk.injEq] at hres
        rw [← hres.2]
        exact h
      · simp only [hfe, BufferPoolManagerInstance.setPage] at hres
        rcases hse : s1.replacer.SetEvictable f false with - | rep1
        · simp only [hse] at hres
          exact absurd hres (by simp)
        · simp only [hse] at hres
          rcases hra : rep1.RecordAccess f with - | rep2
          · simp only [hra] at hres
            exact absurd hres (by simp)
          · simp only [hra, Option.some.injEq, Prod.mk.injEq] at hres
            rw [← hres.2]
            exact PInv_installFrame h hfe pid (s1.disk pid) s1.nextPageId hse hra
    · simp only [hfind, BufferPoolManagerInstance.setPage] at hres
      rcases hse : s.replacer.SetEvictable f false with - | rep1
      · simp only [hse] at hres
        exact absurd hres (by simp)
      · simp only [hse] at hres
        rcases hra : rep1.RecordAccess f with - | rep2
        · simp only [hra] at hres
          exact absurd hres (by simp)
        · simp only [hra, Option.some.injEq, Prod.mk.injEq] at hres
          rw [← hres.2]
          exact PInv_fetchHit h hfind hse hra

/-- The unpin-to-zero tail of `UnpinPgImp` (decrement, mark evictable,
overwrite the dirty flag) preserves the pool invariant. -/
theorem PInv_unpinEv {s : BufferPoolManagerInstance} (h : PInv s) {pid : Int} {f : Nat}
    {d : Bool} (hfind : ExtendibleHashTable.Find stdHashInt s.pageTable pid = some f)
    (hz : (s.pages f).pin_count - 1 = 0)
    {rep : LRUKReplacer} (hse : s.replacer.SetEvictable f true = some rep) :
    PInv { s with
      pages := fun x => if x = f then
          { s.pages f with pin_count := (s.pages f).pin_count - 1, is_dirty := d }
        else (if x = f then { s.pages f with pin_count := (s.pages f).pin_count - 1 }
          else s.pages x)
      replacer := rep } := by
  have hrf : ReachPair s.pageTable (pid, f) := h.einv.find_some_reach hfind
  have hffree : f ∉ s.freeList := fun hf => h.freeNoRef f hf (pid, f) hrf rfl
  refine ⟨h.einv, ?_, h.freeNodup, ?_, h.freeNoRef, ?_⟩
  · intro x hx
    have hx2 : 0 < ((if x = f then
        { s.pages f with pin_count := (s.pages f).pin_count - 1, is_dirty := d }
      else (if x = f then { s.pages f with pin_count := (s.pages f).pin_count - 1 }
        else s.pages x))).pin_count := hx
    show rep.isEvictable x = false
    rw [SetEvictable_isEvictable hse x]
    by_cases hxf : x = f
    · rw [if_pos hxf] at hx2
      have hx3 : 0 < (s.pages f).pin_count - 1 := hx2
      exact absurd hx3 (by omega)
    · rw [if_neg hxf, if_neg hxf] at hx2
      rw [if_neg hxf]
      exact h.pinned x hx2
  · intro g hg
    have hgne : ¬ g = f := fun hc => hffree (hc ▸ hg)
    show ((if g = f then
        { s.pages f with pin_count := (s.pages f).pin_count - 1, is_dirty := d }
      else (if g = f then { s.pages f with pin_count := (s.pages f).pin_count - 1 }
        else s.pages g))).pin_count = 0
    rw [if_neg hgne, if_neg hgne]
    exact h.freePin g hg
  · intro kv hkv
    have hkv2 : ReachPair s.pageTable kv := hkv
    show ((if kv.2 = f then
        { s.pages f with pin_count := (s.pages f).pin_count - 1, is_dirty := d }
      else (if kv.2 = f then { s.pages f with pin_count := (s.pages f).pin_count - 1 }
        else s.pages kv.2))).page_id = kv.1
    by_cases hkf : kv.2 = f
    · rw [if_pos hkf]
      show (s.pages f).page_id = kv.1
      rw [← hkf]
      exact h.pageOf kv hkv2
    · rw [if_neg hkf, if_neg hkf]
      exact h.pageOf kv hkv2

/-- The still-pinned tail of `UnpinPgImp` (decrement and overwrite the
dirty flag, replacer untouched) preserves the pool invariant. -/
theorem PInv_unpinNoEv {s : BufferPoolManagerInstance} (h : PInv s) {pid : Int} {f : Nat}
    {d : Bool} (hfind : ExtendibleHashTable.Find stdHashInt s.pageTable pid = some f) :
    PInv { s with
      pages := fun x => if x = f then
          { s.pages f with pin_count := (s.pages f).pin_count - 1, is_dirty := d }
        else (if x = f then { s.pages f with pin_count := (s.pages f).pin_count - 1 }
          else s.pages x) } := by
  have hrf : ReachPair s.pageTable (pid, f) := h.einv.find_some_reach hfind
  have hffree : f ∉ s.freeList := fun hf => h.freeNoRef f hf (pid, f) hrf rfl
  refine ⟨h.einv, ?_, h.freeNodup, ?_, h.freeNoRef, ?_⟩
  · intro x hx
    have hx2 : 0 < ((if x = f then
        { s.pages f with pin_count := (s.pages f).pin_count - 1, is_dirty := d }
      else (if x = f then { s.pages f with pin_count := (s.pages f).pin_count - 1 }
        else s.pages x))).pin_count := hx
    show s.replacer.isEvictable x = false
    by_cases hxf : x = f
    · rw [if_pos hxf] at hx2
      have hx3 : 0 < (s.pages f).pin_count - 1 := hx2
      rw [hxf]
      exact h.pinned f (by omega)
    · rw [if_neg hxf, if_neg hxf] at hx2
      exact h.pinned x hx2
  · intro g hg
    have hgne : ¬ g = f := fun hc => hffree (hc ▸ hg)
    show ((if g = f then
        { s.pages f with pin_count := (s.pages f).pin_count - 1, is_dirty := d }
      else (if g = f then { s.pages f with pin_count := (s.pages f).pin_count - 1 }
        else s.pages g))).pin_count = 0
    rw [if_neg hgne, if_neg hgne]
    exact h.freePin g hg
  · intro kv hkv
    have hkv2 : ReachPair s.pageTable kv := hkv
    show ((if kv.2 = f then
        { s.pages f with pin_count := (s.pages f).pin_count - 1, is_dirty := d }
      else (if kv.2 = f then { s.pages f with pin_count := (s.pages f).pin_count - 1 }
        else s.pages kv.2))).page_id = kv.1
    by_cases hkf : kv.2 = f
    · rw [if_pos hkf]
      show (s.pages f).page_id = kv.1
      rw [← hkf]
      exact h.pageOf kv hkv2
    · rw [if_neg hkf, if_neg hkf]
      exact h.pageOf kv hkv2

/-- `UnpinPgImp` preserves the pool invariant. -/
theorem PInv_UnpinPg {s s2 : BufferPoolManagerInstance} {pid : Int} {d : Bool} (h : PInv s)
    {res : Bool} (hres : s.UnpinPgImp pid d = some (res, s2)) : PInv s2 := by
  simp only [BufferPoolManagerInstance.UnpinPgImp, BufferPoolManagerInstance.setPage] at hres
  rcases hfind : ExtendibleHashTable.Find stdHashInt s.pageTable pid with - | f
  · simp only [hfind, Option.some.injEq, Prod.mk.injEq] at hres
    rw [← hres.2]
    exact h
  · simp only [hfind] at hres
    split_ifs at hres with hp0 hz
    · simp only [Option.some.injEq, Prod.mk.injEq] at hres
      rw [← hres.2]
      exact h
    · rcases hse : s.replacer.SetEvictable f true with - | rep
      · simp only [hse] at hres
        exact absurd hres (by simp)
      · simp only [hse, Option.map, Option.some.injEq, Prod.mk.injEq] at hres
        rw [← hres.2]
        have hz2 : (s.pages f).pin_count - 1 = 0 := hz
        exact PInv_unpinEv h hfind hz2 hse
    · simp only [Option.map, Option.some.injEq, Prod.mk.injEq] at hres
      rw [← hres.2]
      exact PInv_unpinNoEv h hfind

/-- Clearing one frame's dirty flag (and touching only the disk image and
write log) preserves the pool invariant. -/
theorem PInv_flushAux {s : BufferPoolManagerInstance} (h : PInv s) (f : Nat)
    (dk : Int → Nat) (wl : List (Int × Nat)) :
    PInv { s with
      pages := fun x => if x = f then { s.pages f with is_dirty := false } else s.pages x
      disk := dk
      writeLog := wl } := by
  refine ⟨h.einv, ?_, h.freeNodup, ?_, h.freeNoRef, ?_⟩
  · intro x hx
    have hx2 : 0 < ((if x = f then { s.pages f with is_dirty := false }
        else s.pages x)).pin_count := hx
    show s.replacer.isEvictable x = false
    by_cases hxf : x = f
    · rw [if_pos hxf] at hx2
      have hx3 : 0 < (s.pages f).pin_count := hx2
      rw [hxf]
      exact h.pinned f hx3
    · rw [if_neg hxf] at hx2
      exact h.pinned x hx2
  · intro g hg
    show ((if g = f then { s.pages f with is_dirty := false } else s.pages g)).pin_count = 0
    by_cases hgf : g = f
    · rw [if_pos hgf]
      show (s.pages f).pin_count = 0
      rw [← hgf]
      exact h.freePin g hg
    · rw [if_neg hgf]
      exact h.freePin g hg
  · intro kv hkv
    have hkv2 : ReachPair s.pageTable kv := hkv
    show ((if kv.2 = f then { s.pages f with is_dirty := false }
      else s.pages kv.2)).page_id = kv.1
    by_cases hkf : kv.2 = f
    · rw [if_pos hkf]
      show (s.pages f).page_id = kv.1
      rw [← hkf]
      exact h.pageOf kv hkv2
    · rw [if_neg hkf]
      exact h.pageOf kv hkv2

/-- `FlushPgImp` preserves the pool invariant. -/
theorem PInv_FlushPg {s s2 : BufferPoolManagerInstance} {pid : Int} (h : PInv s)
    {res : Bool} (hres : s.FlushPgImp pid = some (res, s2)) : PInv s2 := by
  simp only [BufferPoolManagerInstance.FlushPgImp, BufferPoolManagerInstance.setPage,
    BufferPoolManagerInstance.writePage] at hres
  rcases hfind : ExtendibleHashTable.Find stdHashInt s.pageTable pid with - | f
  · simp only [hfind, Option.some.injEq, Prod.mk.injEq] at hres
    rw [← hres.2]
    exact h
  · simp only [hfind] at hres
    split_ifs at hres with hd
    · simp only [Option.some.injEq, Prod.mk.injEq] at hres
      rw [← hres.2]
      exact PInv_flushAux h f _ _
    · simp only [Option.some.injEq, Prod.mk.injEq] at hres
      rw [← hres.2]
      exact h

/-- The fold inside `FlushAllPgsImp` never touches the page table, the
replacer, the free list, or any frame's pin count and page id. -/
theorem flushAllGo_fields (l : List Nat) (s : BufferPoolManagerInstance) :
    ((l.foldl (fun acc i =>
        if (acc.pages i).is_dirty ∧ ¬ (acc.pages i).page_id = INVALID_PAGE_ID then
          BufferPoolManagerInstance.setPage
            (acc.writePage (acc.pages i).page_id (acc.pages i).data) i
            { (acc.writePage (acc.pages i).page_id (acc.pages i).data).pages i with
                is_dirty := false }
        else acc) s).pageTable = s.pageTable) ∧
    ((l.foldl (fun acc i =>
        if (acc.pages i).is_dirty ∧ ¬ (acc.pages i).page_id = INVALID_PAGE_ID then
          BufferPoolManagerInstance.setPage
            (acc.writePage (acc.pages i).page_id (acc.pages i).data) i
            { (acc.writePage (acc.pages i).page_id (acc.pages i).data).pages i with
                is_dirty := false }
        else acc) s).replacer = s.replacer) ∧
    ((l.foldl (fun acc i =>
        if (acc.pages i).is_dirty ∧ ¬ (acc.pages i).page_id = INVALID_PAGE_ID then
          BufferPoolManagerInstance.setPage
            (acc.writePage (acc.pages i).page_id (acc.pages i).data) i
            { (acc.writePage (acc.pages i).page_id (acc.pages i).data).pages i with
                is_dirty := false }
        else acc) s).freeList = s.freeList) ∧
    (∀ x, (((l.foldl (fun acc i =>
        if (acc.pages i).is_dirty ∧ ¬ (acc.pages i).page_id = INVALID_PAGE_ID then
          BufferPoolManagerInstance.setPage
            (acc.writePage (acc.pages i).page_id (acc.pages i).data) i
            { (acc.writePage (acc.pages i).page_id (acc.pages i).data).pages i with
                is_dirty := false }
        else acc) s).pages x).pin_count = (s.pages x).pin_count ∧
      ((l.foldl (fun acc i =>
        if (acc.pages i).is_dirty ∧ ¬ (acc.pages i).page_id = INVALID_PAGE_ID then
          BufferPoolManagerInstance.setPage
            (acc.writePage (acc.pages i).page_id (acc.pages i).data) i
            { (acc.writePage (acc.pages i).page_id (acc.pages i).data).pages i with
                is_dirty := false }
        else acc) s).pages x).page_id = (s.pages x).page_id)) := by
  induction l generalizing s with
  | nil => exact ⟨rfl, rfl, rfl, fun x => ⟨rfl, rfl⟩⟩
  | cons i l ih =>
    have hstep : ∀ u : BufferPoolManagerInstance,
        ((if (u.pages i).is_dirty ∧ ¬ (u.pages i).page_id = INVALID_PAGE_ID then
            BufferPoolManagerInstance.setPage
              (u.writePage (u.pages i).page_id (u.pages i).data) i
              { (u.writePage (u.pages i).page_id (u.pages i).data).pages i with
                  is_dirty := false }
          else u).pageTable = u.pageTable) ∧
        ((if (u.pages i).is_dirty ∧ ¬ (u.pages i).page_id = INVALID_PAGE_ID then
            BufferPoolManagerInstance.setPage
              (u.writePage (u.pages i).page_id (u.pages i).data) i
              { (u.writePage (u.pages i).page_id (u.pages i).data).pages i with
                  is_dirty := false }
          else u).replacer = u.replacer) ∧
        ((if (u.pages i).is_dirty ∧ ¬ (u.pages i).page_id = INVALID_PAGE_ID then
            BufferPoolManagerInstance.setPage
              (u.writePage (u.pages i).page_id (u.pages i).data) i
              { (u.writePage (u.pages i).page_id (u.pages i).data).pages i with
                  is_dirty := false }
          else u).freeList = u.freeList) ∧
        (∀ x, (((if (u.pages i).is_dirty ∧ ¬ (u.pages i).page_id = INVALID_PAGE_ID then
            BufferPoolManagerInstance.setPage
              (u.writePage (u.pages i).page_id (u.pages i).data) i
              { (u.writePage (u.pages i).page_id (u.pages i).data).pages i with
                  is_dirty := false }
          else u).pages x).pin_count = (u.pages x).pin_count ∧
          ((if (u.pages i).is_dirty ∧ ¬ (u.pages i).page_id = INVALID_PAGE_ID then
            BufferPoolManagerInstance.setPage
              (u.writePage (u.pages i).page_id (u.pages i).data) i
              { (u.writePage (u.pages i).page_id (u.pages i).data).pages i with
                  is_dirty := false }
          else u).pages x).page_id = (u.pages x).page_id)) := by
      intro u
      split_ifs with hc
      · refine ⟨rfl, rfl, rfl, ?_⟩
        intro x
        by_cases hx : x = i
        · subst hx
          rw [setPage_pages_self]
          exact ⟨rfl, rfl⟩
        · rw [setPage_pages_ne _ hx]
          exact ⟨rfl, rfl⟩
      · exact ⟨rfl, rfl, rfl, fun x => ⟨rfl, rfl⟩⟩
    rw [List.foldl_cons]
    obtain ⟨ht1, hr1, hf1, hp1⟩ := hstep s
    obtain ⟨ht2, hr2, hf2, hp2⟩ := ih ((if (s.pages i).is_dirty ∧
        ¬ (s.pages i).page_id = INVALID_PAGE_ID then
          BufferPoolManagerInstance.setPage
            (s.writePage (s.pages i).page_id (s.pages i).data) i
            { (s.writePage (s.pages i).page_id (s.pages i).data).pages i with
                is_dirty := false }
        else s))
    refine ⟨ht2.trans ht1, hr2.trans hr1, hf2.trans hf1, ?_⟩
    intro x
    exact ⟨(hp2 x).1.trans (hp1 x).1, (hp2 x).2.trans (hp1 x).2⟩

/-- `FlushAllPgsImp` preserves the pool invariant. -/
theorem PInv_FlushAll {s : BufferPoolManagerInstance} (h : PInv s) :
    PInv s.FlushAllPgsImp := by
  obtain ⟨htab, hrep, hfree, hpages⟩ := flushAllGo_fields (List.range s.poolSize) s
  have htab2 : (s.FlushAllPgsImp).pageTable = s.pageTable := htab
  have hrep2 : (s.FlushAllPgsImp).replacer = s.replacer := hrep
  have hfree2 : (s.FlushAllPgsImp).freeList = s.freeList := hfree
  have hpin2 : ∀ x, ((s.FlushAllPgsImp).pages x).pin_count = (s.pages x).pin_count :=
    fun x => (hpages x).1
  have hpid2 : ∀ x, ((s.FlushAllPgsImp).pages x).page_id = (s.pages x).page_id :=
    fun x => (hpages x).2
  refine ⟨?_, ?_, ?_, ?_, ?_, ?_⟩
  · rw [htab2]
    exact h.einv
  · intro x hx
    rw [hpin2 x] at hx
    rw [hrep2]
    exact h.pinned x hx
  · rw [hfree2]
    exact h.freeNodup
  · intro g hg
    rw [hfree2] at hg
    rw [hpin2 g]
    exact h.freePin g hg
  · intro g hg kv hkv
    rw [hfree2] at hg
    rw [htab2] at hkv
    exact h.freeNoRef g hg kv hkv
  · intro kv hkv
    rw [htab2] at hkv
    rw [hpid2 kv.2]
    exact h.pageOf kv hkv

/-- The delete tail of `DeletePgImp` (drop the mapping, remove the frame
from the replacer, reset the frame, push it on the free list) preserves
the pool invariant. -/
theorem PInv_deleteAux {s : BufferPoolManagerInstance} (h : PInv s) {pid : Int} {f : Nat}
    (hfind : ExtendibleHashTable.Find stdHashInt s.pageTable pid = some f)
    {rep : LRUKReplacer} (hrm : s.replacer.Remove f = some rep) :
    PInv { s with
      pageTable := (ExtendibleHashTable.Remove stdHashInt s.pageTable pid).2
      replacer := rep
      pages := fun x => if x = f then ⟨INVALID_PAGE_ID, 0, false, 0⟩ else s.pages x
      freeList := s.freeList ++ [f] } := by
  have hrf : ReachPair s.pageTable (pid, f) := h.einv.find_some_reach hfind
  have hpidf : (s.pages f).page_id = pid := h.pageOf (pid, f) hrf
  have hffree : f ∉ s.freeList := fun hf => h.freeNoRef f hf (pid, f) hrf rfl
  have hrs := h.einv.remove_spec pid
  refine ⟨hrs.1, ?_, ?_, ?_, ?_, ?_⟩
  · intro x hx
    have hx2 : 0 < ((if x = f then (⟨INVALID_PAGE_ID, 0, false, 0⟩ : Page)
        else s.pages x)).pin_count := hx
    show rep.isEvictable x = false
    by_cases hxf : x = f
    · rw [if_pos hxf] at hx2
      exact absurd hx2 (by simp)
    · rw [if_neg hxf] at hx2
      rw [Remove_isEvictable_ne hrm x hxf]
      exact h.pinned x hx2
  · show (s.freeList ++ [f]).Nodup
    refine List.Nodup.append h.freeNodup (List.nodup_singleton f) ?_
    intro a ha hb
    rw [List.mem_singleton] at hb
    exact hffree (hb ▸ ha)
  · intro g hg
    show ((if g = f then (⟨INVALID_PAGE_ID, 0, false, 0⟩ : Page)
      else s.pages g)).pin_count = 0
    by_cases hgf : g = f
    · rw [if_pos hgf]
    · rw [if_neg hgf]
      have hg2 : g ∈ s.freeList := by
        rcases List.mem_append.1 hg with hg | hg
        · exact hg
        · exact absurd (List.mem_singleton.1 hg) hgf
      exact h.freePin g hg2
  · intro g hg kv hkv
    have hkv2 : ReachPair (ExtendibleHashTable.Remove stdHashInt s.pageTable pid).2 kv :=
      hkv
    obtain ⟨hold, hne⟩ := hrs.2 kv hkv2
    have hkvf : ¬ kv.2 = f := by
      intro hc
      apply hne
      rw [← h.pageOf kv hold, hc, hpidf]
    rcases List.mem_append.1 hg with hg | hg
    · exact h.freeNoRef g hg kv hold
    · rw [List.mem_singleton.1 hg]
      exact hkvf
  · intro kv hkv
    have hkv2 : ReachPair (ExtendibleHashTable.Remove stdHashInt s.pageTable pid).2 kv :=
      hkv
    obtain ⟨hold, hne⟩ := hrs.2 kv hkv2
    have hkvf : ¬ kv.2 = f := by
      intro hc
      apply hne
      rw [← h.pageOf kv hold, hc, hpidf]
    show ((if kv.2 = f then (⟨INVALID_PAGE_ID, 0, false, 0⟩ : Page)
      else s.pages kv.2)).page_id = kv.1
    rw [if_neg hkvf]
    exact h.pageOf kv hold

/-- `DeletePgImp` preserves the pool invariant. -/
theorem PInv_DeletePg {s s2 : BufferPoolManagerInstance} {pid : Int} (h : PInv s)
    {res : Bool} (hres : s.DeletePgImp pid = some (res, s2)) : PInv s2 := by
  simp only [BufferPoolManagerInstance.DeletePgImp, BufferPoolManagerInstance.setPage] at hres
  rcases hfind : ExtendibleHashTable.Find stdHashInt s.pageTable pid with - | f
  · simp only [hfind, Option.some.injEq, Prod.mk.injEq] at hres
    rw [← hres.2]
    exact h
  · simp only [hfind] at hres
    split_ifs at hres with hp
    · simp only [Option.some.injEq, Prod.mk.injEq] at hres
      rw [← hres.2]
      exact h
    · rcases hrm : s.replacer.Remove f with - | rep
      · simp only [hrm] at hres
        exact absurd hres (by simp)
      · simp only [hrm, Option.some.injEq, Prod.mk.injEq] at hres
        rw [← hres.2]
        exact PInv_deleteAux h hfind hrm

/-- Every successful pool call preserves the pool invariant. -/
theorem PInv_pstep {s s2 : BufferPoolManagerInstance} {op : PoolOp}
    (h : PInv s) (hres : pstep s op = some s2) : PInv s2 := by
  cases op with
  | newPage =>
    simp only [pstep, Option.map_eq_some'] at hres
    obtain ⟨⟨res, s3⟩, hN, heq⟩ := hres
    rw [← heq]
    exact PInv_NewPg h hN
  | fetchPage p =>
    simp only [pstep, Option.map_eq_some'] at hres
    obtain ⟨⟨res, s3⟩, hN, heq⟩ := hres
    rw [← heq]
    exact PInv_FetchPg h hN
  | unpinPage p d =>
    simp only [pstep, Option.map_eq_some'] at hres
    obtain ⟨⟨res, s3⟩, hN, heq⟩ := hres
    rw [← heq]
    exact PInv_UnpinPg h hN
  | flushPage p =>
    simp only [pstep, Option.map_eq_some'] at hres
    obtain ⟨⟨res, s3⟩, hN, heq⟩ := hres
    rw [← heq]
    exact PInv_FlushPg h hN
  | flushAll =>
    simp only [pstep, Option.some.injEq] at hres
    rw [← hres]
    exact PInv_FlushAll h
  | deletePage p =>
    simp only [pstep, Option.map_eq_some'] at hres
    obtain ⟨⟨res, s3⟩, hN, heq⟩ := hres
    rw [← heq]
    exact PInv_DeletePg h hN

/-- Folding pool calls from a dead run stays dead. -/
theorem runPool_from_none (ops : List PoolOp) :
    ops.foldl (fun acc op => acc.bind (fun t => pstep t op)) none = none := by
  induction ops with
  | nil => rfl
  | cons op ops ih => simpa [List.foldl_cons] using ih

/-- Any reachable pool state satisfies the pool invariant. -/
theorem PInv_runPool (ops : List PoolOp) (s : BufferPoolManagerInstance) (h : PInv s)
    {s2 : BufferPoolManagerInstance} (hrun : runPool ops s = some s2) : PInv s2 := by
  induction ops generalizing s with
  | nil => exact Option.some.inj hrun ▸ h
  | cons op ops ih =>
    rw [runPool, List.foldl_cons] at hrun
    rcases hstep : pstep s op with - | s3
    · rw [Option.bind] at hrun
      simp only [hstep] at hrun
      rw [runPool_from_none ops] at hrun
      exact Option.noConfusion hrun
    · rw [Option.bind] at hrun
      simp only [hstep] at hrun
      exact ih s3 (PInv_pstep h hstep) hrun

/-- The freshly constructed pool satisfies the pool invariant (the header
constant `bucket_size_` is any positive capacity). -/
theorem PInv_new (poolSize bucketSize k : Nat) (hb : 0 < bucketSize) :
    PInv (BufferPoolManagerInstance.new poolSize bucketSize k) := by
  have hnoreach : ∀ kv : Int × Nat,
      ReachPair (ExtendibleHashTable.new Int Nat bucketSize) kv → False := by
    intro kv hkv
    obtain ⟨i, hi, hmem⟩ := hkv
    have hi0 : i = 0 := by
      have hi1 : i < 1 := hi
      omega
    subst hi0
    exact absurd hmem (List.not_mem_nil kv)
  refine ⟨⟨hb, rfl, ?_, ?_, ?_, ?_, ?_⟩, ?_, ?_, fun g hg => rfl, ?_, ?_⟩
  · intro r hr
    have hr2 : r ∈ [0] := hr
    rw [List.mem_singleton] at hr2
    rw [hr2]
    exact Nat.one_pos
  · intro b hbm
    have hbm2 : b ∈ [(⟨bucketSize, 0, []⟩ : Bucket Int Nat)] := hbm
    rw [List.mem_singleton] at hbm2
    rw [hbm2]
    exact Nat.le.refl
  · intro b hbm
    have hbm2 : b ∈ [(⟨bucketSize, 0, []⟩ : Bucket Int Nat)] := hbm
    rw [List.mem_singleton] at hbm2
    rw [hbm2]
    rfl
  · intro i hi kv hkv
    have hi0 : i = 0 := by
      have hi1 : i < 1 := hi
      omega
    subst hi0
    exact absurd hkv (List.not_mem_nil kv)
  · intro i hi j hj
    have hi0 : i = 0 := by
      have hi1 : i < 1 := hi
      omega
    have hj0 : j = 0 := by
      have hj1 : j < 1 := hj
      omega
    subst hi0
    subst hj0
    exact iff_of_true rfl rfl
  · intro x hx
    have hx2 : 0 < (0 : Nat) := hx
    exact absurd hx2 (by simp)
  · exact List.nodup_range poolSize
  · intro g hg kv hkv
    exact (hnoreach kv hkv).elim
  · intro kv hkv
    exact (hnoreach kv hkv).elim

/-- **C6**: after every sequence of buffer-pool calls (`new_page`,
`fetch_page`, `unpin_page`, `flush_page`, `flush_all`, `delete_page`)
from a fresh pool, no frame with a positive pin count is marked evictable
in the replacer, and no such frame is on the free list. -/
theorem c6_pinned_not_evictable_not_free (poolSize bucketSize k : Nat)
    (hb : 0 < bucketSize) (ops : List PoolOp) (s2 : BufferPoolManagerInstance)
    (hrun : runPool ops (BufferPoolManagerInstance.new poolSize bucketSize k) = some s2)
    (f : Nat) (hpin : 0 < (s2.pages f).pin_count) :
    s2.replacer.isEvictable f = false ∧ f ∉ s2.freeList := by
  have h2 := PInv_runPool ops _ (PInv_new poolSize bucketSize k hb) hrun
  refine ⟨h2.pinned f hpin, ?_⟩
  intro hf
  rw [h2.freePin f hf] at hpin
  exact absurd hpin (by simp)

/-- Witness for C6: a two-frame pool where `new_page` pinned frame 0. -/
theorem c6_pinned_not_evictable_not_free_witness :
    (0 : Nat) < 4 ∧
    runPool [PoolOp.newPage] (BufferPoolManagerInstance.new 2 4 2)
      = some ((runPool [PoolOp.newPage] (BufferPoolManagerInstance.new 2 4 2)).getD
          (BufferPoolManagerInstance.new 2 4 2)) ∧
    0 < ((((runPool [PoolOp.newPage] (BufferPoolManagerInstance.new 2 4 2)).getD
          (BufferPoolManagerInstance.new 2 4 2)).pages 0)).pin_count ∧
    (((runPool [PoolOp.newPage] (BufferPoolManagerInstance.new 2 4 2)).getD
          (BufferPoolManagerInstance.new 2 4 2)).replacer.isEvictable 0 = false ∧
      0 ∉ ((runPool [PoolOp.newPage] (BufferPoolManagerInstance.new 2 4 2)).getD
          (BufferPoolManagerInstance.new 2 4 2)).freeList) :=
  ⟨by decide, rfl, by decide,
    c6_pinned_not_evictable_not_free 2 4 2 (by decide) [PoolOp.newPage]
      ((runPool [PoolOp.newPage] (BufferPoolManagerInstance.new 2 4 2)).getD
        (BufferPoolManagerInstance.new 2 4 2)) rfl 0 (by decide)⟩

end PoolInvariant

end Spec2Proof
